import Mathlib

/-
Verification development for the GalSim image-rendering engine:
galsim/gsobject.py (GSObject.drawImage and its helpers) and
galsim/series.py (the Series cache and the series expansions).

Modelling conventions, used throughout:
 - Python floats are modelled as rationals.  Results of transcendental
   library functions (log, exp, cos, sin, sqrt, acosh, atan2) are taken as
   opaque rational inputs or as function parameters wherever the property
   at issue does not depend on their values.
 - Python exceptions are modelled with Except; the source raises ValueError
   for every invalid draw-parameter combination, which is the class the
   specification calls ConfigurationError.
 - Mutable state is passed explicitly: a method that mutates its receiver
   is modelled as a function returning the updated state.
-/

/-! ### Part 1: functional model of the real-space LRU cache

galsim/series.py, Series.__init__ (lines 59-71, real-space part) and
Series._basisCube (lines 84-128).

The cache is a dict from keys to nodes of a circular doubly linked list
holding maxcache nodes plus a root sentinel; Series.__init__ fills the
list with maxcache placeholder entries keyed by fresh object() sentinels.
The real-space list is initialised correctly (root[0] = last, line 71), so
for runs that perform only real-space operations we abstract the circular
structure by the list of its entries in order from the node after root
(least recently used) to the node before root (most recently used):

 - a hit (cache.get(key) finds a link, lines 96-104) unlinks the node and
   re-inserts it just before root: remove the entry, append it at the end;
 - a miss (lines 105-128) stores the new entry in the root node itself and
   advances root to the next node, whose contents are evicted: remove the
   head entry, append the new entry at the end.

Sentinel keys from initialisation are CacheKey.dummy i; user keys are
CacheKey.real k.  They can never collide, since object() sentinels are
fresh objects never equal to any user-supplied tuple key.  A stored link
for a real key always carries a computed result, so the placeholder value
is an Option that is some _ exactly on real entries. -/

inductive CacheKey (κ : Type) where
  | dummy (i : ℕ)
  | real (k : κ)
deriving DecidableEq

abbrev LRUCache (κ ν : Type) := List (CacheKey κ × Option ν)

/-- The maxcache placeholder entries created by Series.__init__
(lines 65-71): dummy keys, no stored results. -/
def freshCache (κ ν : Type) (maxcache : ℕ) : LRUCache κ ν :=
  (List.range maxcache).map (fun i => (CacheKey.dummy i, none))

/-- One _basisCube access with a given key.  fresh is the cube that the
miss branch would build from the basis profiles (lines 106-117); the hit
branch never uses it, exactly as the source only draws basis images after
cache.get returns None.  Returns (new cache state, result, hit?).
The (found, stored none) case is unreachable for real keys (see above);
it is mapped to the miss branch. -/
def cacheAccess {κ ν : Type} [DecidableEq κ] (c : LRUCache κ ν) (k : κ)
    (fresh : ν) : LRUCache κ ν × ν × Bool :=
  match c.find? (fun p => p.1 = CacheKey.real k) with
  | some (_, some v) =>
      (c.filter (fun p => p.1 ≠ CacheKey.real k) ++ [(CacheKey.real k, some v)],
       v, true)
  | _ =>
      (c.tail ++ [(CacheKey.real k, some fresh)], fresh, false)

def cacheKeys {κ ν : Type} (c : LRUCache κ ν) : List (CacheKey κ) :=
  c.map (·.1)

/-- A sequence of _basisCube accesses, oldest first. -/
def insertAll {κ ν : Type} [DecidableEq κ] (c : LRUCache κ ν)
    (kvs : List (κ × ν)) : LRUCache κ ν :=
  kvs.foldl (fun s kv => (cacheAccess s kv.1 kv.2).1) c

theorem find?_eq_none_of_not_mem {κ ν : Type} [DecidableEq κ]
    {c : LRUCache κ ν} {k : κ} (h : CacheKey.real k ∉ cacheKeys c) :
    c.find? (fun p => p.1 = CacheKey.real k) = none := by
  rw [List.find?_eq_none]
  intro p hp hpk
  apply h
  simp only [cacheKeys, List.mem_map]
  exact ⟨p, hp, by simpa using hpk⟩

theorem cacheAccess_miss {κ ν : Type} [DecidableEq κ]
    {c : LRUCache κ ν} {k : κ} (v : ν) (h : CacheKey.real k ∉ cacheKeys c) :
    cacheAccess c k v = (c.tail ++ [(CacheKey.real k, some v)], v, false) := by
  unfold cacheAccess
  rw [find?_eq_none_of_not_mem h]

theorem insertAll_fresh {κ ν : Type} [DecidableEq κ] :
    ∀ (kvs : List (κ × ν)) (c : LRUCache κ ν),
    (∀ kv ∈ kvs, CacheKey.real kv.1 ∉ cacheKeys c) →
    (kvs.map Prod.fst).Nodup →
    kvs.length ≤ c.length →
    insertAll c kvs =
      c.drop kvs.length ++
        kvs.map (fun kv => (CacheKey.real kv.1, some kv.2)) := by
  intro kvs
  induction kvs with
  | nil => intro c _ _ _; simp [insertAll]
  | cons kv rest ih =>
    intro c hfresh hnodup hlen
    have hkv : CacheKey.real kv.1 ∉ cacheKeys c :=
      hfresh kv (List.mem_cons_self _ _)
    have hstep : (cacheAccess c kv.1 kv.2).1
        = c.tail ++ [(CacheKey.real kv.1, some kv.2)] := by
      rw [cacheAccess_miss kv.2 hkv]
    have hlenc : rest.length + 1 ≤ c.length := by simpa using hlen
    have hnodup1 : kv.1 ∉ rest.map Prod.fst ∧ (rest.map Prod.fst).Nodup := by
      have := List.nodup_cons.mp (show (kv.1 :: rest.map Prod.fst).Nodup by
        simpa using hnodup)
      exact this
    have hrest : ∀ kv2 ∈ rest,
        CacheKey.real kv2.1 ∉
          cacheKeys (c.tail ++ [(CacheKey.real kv.1, some kv.2)]) := by
      intro kv2 h2 hmem
      have hsplit : cacheKeys (c.tail ++ [(CacheKey.real kv.1, some kv.2)])
          = cacheKeys c.tail ++ [CacheKey.real kv.1] := by
        simp [cacheKeys]
      rw [hsplit] at hmem
      rcases List.mem_append.mp hmem with h | h
      · refine hfresh kv2 (List.mem_cons_of_mem _ h2) ?_
        have htl : cacheKeys c.tail = (cacheKeys c).tail := by
          simp [cacheKeys, List.map_tail]
        rw [htl] at h
        exact List.mem_of_mem_tail h
      · have hk : kv2.1 = kv.1 := by simpa using h
        exact hnodup1.1 (hk ▸ List.mem_map_of_mem Prod.fst h2)
    have hlen2 : rest.length ≤ (c.tail ++ [(CacheKey.real kv.1, some kv.2)]).length := by
      simp [List.length_tail]
      omega
    have hmain := ih (c.tail ++ [(CacheKey.real kv.1, some kv.2)]) hrest hnodup1.2 hlen2
    calc insertAll c (kv :: rest)
        = insertAll (c.tail ++ [(CacheKey.real kv.1, some kv.2)]) rest := by
          simp [insertAll, hstep]
      _ = (c.tail ++ [(CacheKey.real kv.1, some kv.2)]).drop rest.length ++
            rest.map (fun kv => (CacheKey.real kv.1, some kv.2)) := hmain
      _ = c.drop (kv :: rest).length ++
            (kv :: rest).map (fun kv => (CacheKey.real kv.1, some kv.2)) := by
          have hr : rest.length ≤ c.tail.length := by
            simp [List.length_tail]; omega
          rw [List.drop_append_of_le_length hr]
          have hd : c.tail.drop rest.length = c.drop (rest.length + 1) := by
            rw [← List.drop_one, List.drop_drop, Nat.add_comm]
          rw [hd]
          simp

theorem find?_middle {κ ν : Type} [DecidableEq κ] :
    ∀ (l1 : LRUCache κ ν) (k : κ) (v : ν) (l2 : LRUCache κ ν),
    CacheKey.real k ∉ cacheKeys l1 →
    (l1 ++ (CacheKey.real k, some v) :: l2).find?
        (fun p => p.1 = CacheKey.real k) = some (CacheKey.real k, some v) := by
  intro l1
  induction l1 with
  | nil => intro k v l2 _; simp
  | cons p l1 ih =>
    intro k v l2 h
    have hp : ¬ (p.1 = CacheKey.real k) := by
      intro hpk
      apply h
      simp only [cacheKeys, List.map_cons, List.mem_cons]
      exact Or.inl hpk.symm
    have hnot1 : CacheKey.real k ∉ cacheKeys l1 := by
      intro hm
      apply h
      simp only [cacheKeys, List.map_cons, List.mem_cons]
      exact Or.inr (by simpa [cacheKeys] using hm)
    have hrec := ih k v l2 hnot1
    simpa [List.find?_cons, hp] using hrec

theorem filter_middle {κ ν : Type} [DecidableEq κ]
    (l1 l2 : LRUCache κ ν) (k : κ) (v : ν)
    (h1 : CacheKey.real k ∉ cacheKeys l1) (h2 : CacheKey.real k ∉ cacheKeys l2) :
    (l1 ++ (CacheKey.real k, some v) :: l2).filter
        (fun p => p.1 ≠ CacheKey.real k) = l1 ++ l2 := by
  have hkeep : ∀ (l : LRUCache κ ν), CacheKey.real k ∉ cacheKeys l →
      l.filter (fun p => !decide (p.1 = CacheKey.real k)) = l := by
    intro l hl
    apply List.filter_eq_self.mpr
    intro p hp
    simp only [Bool.not_eq_true', decide_eq_false_iff_not]
    intro hpk
    apply hl
    simp only [cacheKeys, List.mem_map]
    exact ⟨p, hp, hpk⟩
  have h3 := hkeep l1 h1
  have h4 := hkeep l2 h2
  rw [List.filter_append, List.filter_cons]
  simp only [ne_eq, decide_not]
  rw [h3, h4]
  simp

theorem real_not_mem_fresh {κ ν : Type} (m : ℕ) (k : κ) :
    CacheKey.real k ∉ cacheKeys (freshCache κ ν m) := by
  simp [freshCache, cacheKeys]

theorem tail_append_singleton {α : Type} (l : List α) (e : α) (h : l ≠ []) :
    (l ++ [e]).tail = l.tail ++ [e] := by
  cases l with
  | nil => exact absurd rfl h
  | cons x xs => rfl

theorem length_freshCache {κ ν : Type} (m : ℕ) :
    (freshCache κ ν m).length = m := by
  simp [freshCache]

theorem cacheKeys_map_entry {κ ν : Type} (l : List (κ × ν)) (k : κ) :
    CacheKey.real k ∈
      cacheKeys (l.map (fun kv => (CacheKey.real kv.1, some kv.2))) ↔
    k ∈ l.map Prod.fst := by
  simp [cacheKeys]

/-- Filling a fresh cache of capacity m with exactly m distinct keys leaves
all of them cached, in insertion order. -/
theorem insertAll_exact {κ ν : Type} [DecidableEq κ]
    (m : ℕ) (kvs : List (κ × ν)) (hlen : kvs.length = m)
    (hnd : (kvs.map Prod.fst).Nodup) :
    insertAll (freshCache κ ν m) kvs
      = kvs.map (fun kv => (CacheKey.real kv.1, some kv.2)) := by
  have h := insertAll_fresh kvs (freshCache κ ν m)
    (fun kv _ => real_not_mem_fresh m kv.1) hnd
    (by rw [length_freshCache]; omega)
  rw [h, hlen]
  have : (freshCache κ ν m).drop m = [] := by
    apply List.drop_eq_nil_of_le
    rw [length_freshCache]
  rw [this, List.nil_append]

/-- Behaviour of the hit branch of _basisCube (lines 96-104): the entry is
returned with its stored result and moved to the most-recently-used
position, every other entry staying in order. -/
theorem cacheAccess_hit {κ ν : Type} [DecidableEq κ]
    (l1 l2 : LRUCache κ ν) (k : κ) (v w : ν)
    (h1 : CacheKey.real k ∉ cacheKeys l1) (h2 : CacheKey.real k ∉ cacheKeys l2) :
    cacheAccess (l1 ++ (CacheKey.real k, some v) :: l2) k w
      = (l1 ++ l2 ++ [(CacheKey.real k, some v)], v, true) := by
  unfold cacheAccess
  rw [find?_middle l1 k v l2 h1]
  rw [filter_middle l1 l2 k v h1 h2]

/-- C2, amended: starting from a real-space cache initialised with capacity
maxcache, inserting maxcache + 1 distinct keys evicts exactly the
least-recently-accessed entry and no other (all later entries survive, in
order); and, provided maxcache is at least 2, an entry that is re-accessed
(cache hit) before the (maxcache+1)-th insertion is promoted to
most-recently-used, returns its stored result, and is not the entry
evicted by that insertion (the entry evicted is the head, i.e. the
least-recently-used entry at that moment).  The amendment restricts the
protection statement to maxcache at least 2: with maxcache = 1 the
re-accessed entry is the sole, hence least-recently-used, entry and is
itself evicted (see the counterexample). -/
theorem seriesCache_lru_eviction_and_protection {κ ν : Type} [DecidableEq κ]
    (m : ℕ) :
    (∀ (kvs : List (κ × ν)), kvs.length = m + 1 →
      (kvs.map Prod.fst).Nodup → 1 ≤ m →
      insertAll (freshCache κ ν m) kvs
        = kvs.tail.map (fun kv => (CacheKey.real kv.1, some kv.2)))
    ∧
    (∀ (kvs : List (κ × ν)) (k : κ) (v w vnew : ν) (knew : κ),
      kvs.length = m → (kvs.map Prod.fst).Nodup → 2 ≤ m →
      (k, v) ∈ kvs → knew ∉ kvs.map Prod.fst →
      (cacheAccess (insertAll (freshCache κ ν m) kvs) k w).2.2 = true ∧
      (cacheAccess (insertAll (freshCache κ ν m) kvs) k w).2.1 = v ∧
      ((cacheAccess (insertAll (freshCache κ ν m) kvs) k w).1).getLast?
          = some (CacheKey.real k, some v) ∧
      CacheKey.real k ∈ cacheKeys
        ((cacheAccess
            ((cacheAccess (insertAll (freshCache κ ν m) kvs) k w).1)
            knew vnew).1) ∧
      cacheKeys ((cacheAccess
            ((cacheAccess (insertAll (freshCache κ ν m) kvs) k w).1)
            knew vnew).1)
        = (cacheKeys ((cacheAccess (insertAll (freshCache κ ν m) kvs) k w).1)).tail
            ++ [CacheKey.real knew]) := by
  constructor
  · -- eviction of exactly the least-recently-accessed entry
    intro kvs hlen hnd hm1
    cases kvs with
    | nil => simp at hlen
    | cons kv0 rest =>
      have hlen0 : rest.length = m := by simpa using hlen
      have hnd0 : kv0.1 ∉ rest.map Prod.fst ∧ (rest.map Prod.fst).Nodup := by
        have := List.nodup_cons.mp (show (kv0.1 :: rest.map Prod.fst).Nodup by
          simpa using hnd)
        exact this
      have hstep : (cacheAccess (freshCache κ ν m) kv0.1 kv0.2).1
          = (freshCache κ ν m).tail ++ [(CacheKey.real kv0.1, some kv0.2)] := by
        rw [cacheAccess_miss kv0.2 (real_not_mem_fresh m kv0.1)]
      have hfresh1 : ∀ kv ∈ rest, CacheKey.real kv.1 ∉
          cacheKeys ((freshCache κ ν m).tail ++ [(CacheKey.real kv0.1, some kv0.2)]) := by
        intro kv hkv hmem
        have : cacheKeys ((freshCache κ ν m).tail ++ [(CacheKey.real kv0.1, some kv0.2)])
            = cacheKeys (freshCache κ ν m).tail ++ [CacheKey.real kv0.1] := by
          simp [cacheKeys]
        rw [this] at hmem
        rcases List.mem_append.mp hmem with h | h
        · have htl : cacheKeys (freshCache κ ν m).tail
              = (cacheKeys (freshCache κ ν m)).tail := by
            simp [cacheKeys, List.map_tail]
          rw [htl] at h
          exact real_not_mem_fresh m kv.1 (List.mem_of_mem_tail h)
        · have : kv.1 = kv0.1 := by simpa using h
          exact hnd0.1 (this ▸ List.mem_map_of_mem Prod.fst hkv)
      have hlenT : ((freshCache κ ν m).tail
          ++ [(CacheKey.real kv0.1, some kv0.2)]).length = m - 1 + 1 := by
        rw [List.length_append, List.length_tail, length_freshCache]
        simp
      have hlen1 : rest.length ≤
          ((freshCache κ ν m).tail ++ [(CacheKey.real kv0.1, some kv0.2)]).length := by
        rw [hlenT]
        omega
      have hmain := insertAll_fresh rest
        ((freshCache κ ν m).tail ++ [(CacheKey.real kv0.1, some kv0.2)])
        hfresh1 hnd0.2 hlen1
      have hdrop : ((freshCache κ ν m).tail ++ [(CacheKey.real kv0.1, some kv0.2)]).drop
          rest.length = [] := by
        apply List.drop_eq_nil_of_le
        rw [hlenT]
        omega
      calc insertAll (freshCache κ ν m) (kv0 :: rest)
          = insertAll ((freshCache κ ν m).tail ++ [(CacheKey.real kv0.1, some kv0.2)])
              rest := by simp [insertAll, hstep]
        _ = rest.map (fun kv => (CacheKey.real kv.1, some kv.2)) := by
              rw [hmain, hdrop, List.nil_append]
        _ = (kv0 :: rest).tail.map (fun kv => (CacheKey.real kv.1, some kv.2)) := rfl
  · -- protection of a re-accessed entry, capacity at least 2
    intro kvs k v w vnew knew hlen hnd hm hkv hknew
    obtain ⟨as, bs, hsplit⟩ := List.append_of_mem hkv
    subst hsplit
    have hs1 : insertAll (freshCache κ ν m) (as ++ (k, v) :: bs)
        = as.map (fun kv => (CacheKey.real kv.1, some kv.2))
          ++ (CacheKey.real k, some v)
            :: bs.map (fun kv => (CacheKey.real kv.1, some kv.2)) := by
      rw [insertAll_exact m _ hlen hnd]
      simp
    have hndk : ((as.map Prod.fst) ++ k :: (bs.map Prod.fst)).Nodup := by
      simpa using hnd
    have hknotas : k ∉ as.map Prod.fst ∧ k ∉ bs.map Prod.fst := by
      have hmid := List.nodup_middle.mp hndk
      have hnc := List.nodup_cons.mp hmid
      constructor
      · intro hc; exact hnc.1 (List.mem_append.mpr (Or.inl hc))
      · intro hc; exact hnc.1 (List.mem_append.mpr (Or.inr hc))
    have h1 : CacheKey.real k ∉
        cacheKeys (as.map (fun kv => (CacheKey.real kv.1, some kv.2))) := by
      rw [cacheKeys_map_entry]; exact hknotas.1
    have h2 : CacheKey.real k ∉
        cacheKeys (bs.map (fun kv => (CacheKey.real kv.1, some kv.2))) := by
      rw [cacheKeys_map_entry]; exact hknotas.2
    have hhit := cacheAccess_hit
      (as.map (fun kv => (CacheKey.real kv.1, some kv.2)))
      (bs.map (fun kv => (CacheKey.real kv.1, some kv.2))) k v w h1 h2
    rw [hs1, hhit]
    refine ⟨rfl, rfl, ?_, ?_, ?_⟩
    · simp
    · -- k survives the (m+1)-th insertion
      have hknew2 : CacheKey.real knew ∉ cacheKeys
          ((as.map (fun kv => (CacheKey.real kv.1, some kv.2))
            ++ bs.map (fun kv => (CacheKey.real kv.1, some kv.2)))
            ++ [(CacheKey.real k, some v)]) := by
        intro hmem
        simp only [cacheKeys, List.map_append, List.mem_append] at hmem
        rcases hmem with (h | h) | h
        · have : knew ∈ as.map Prod.fst := by
            have := (cacheKeys_map_entry as knew).mp (by simpa [cacheKeys] using h)
            exact this
          exact hknew (by simp; exact Or.inl (by simpa using this))
        · have : knew ∈ bs.map Prod.fst := by
            have := (cacheKeys_map_entry bs knew).mp (by simpa [cacheKeys] using h)
            exact this
          exact hknew (by simp; exact Or.inr (Or.inr (by simpa using this)))
        · have : knew = k := by simpa using h
          exact hknew (by simp [this])
      have hmiss := cacheAccess_miss (c :=
          (as.map (fun kv => (CacheKey.real kv.1, some kv.2))
            ++ bs.map (fun kv => (CacheKey.real kv.1, some kv.2)))
            ++ [(CacheKey.real k, some v)]) vnew hknew2
      rw [show (as.map (fun kv => (CacheKey.real kv.1, some kv.2))
            ++ bs.map (fun kv => (CacheKey.real kv.1, some kv.2))
            ++ [(CacheKey.real k, some v)])
          = ((as.map (fun kv => (CacheKey.real kv.1, some kv.2))
            ++ bs.map (fun kv => (CacheKey.real kv.1, some kv.2)))
            ++ [(CacheKey.real k, some v)]) by simp, hmiss]
      have habne : (as.map (fun kv => (CacheKey.real kv.1, some kv.2))
          ++ bs.map (fun kv => (CacheKey.real kv.1, some kv.2))) ≠ [] := by
        intro hc
        have : as.length + bs.length = 0 := by
          have := congrArg List.length hc
          simpa using this
        have : (as ++ (k, v) :: bs).length = m := hlen
        simp [List.length_append] at this
        omega
      rw [tail_append_singleton _ _ habne]
      simp [cacheKeys]
    · -- the entry evicted is the head of the post-hit state
      have hknew2 : CacheKey.real knew ∉ cacheKeys
          ((as.map (fun kv => (CacheKey.real kv.1, some kv.2))
            ++ bs.map (fun kv => (CacheKey.real kv.1, some kv.2)))
            ++ [(CacheKey.real k, some v)]) := by
        intro hmem
        simp only [cacheKeys, List.map_append, List.mem_append] at hmem
        rcases hmem with (h | h) | h
        · have : knew ∈ as.map Prod.fst := by
            have := (cacheKeys_map_entry as knew).mp (by simpa [cacheKeys] using h)
            exact this
          exact hknew (by simp; exact Or.inl (by simpa using this))
        · have : knew ∈ bs.map Prod.fst := by
            have := (cacheKeys_map_entry bs knew).mp (by simpa [cacheKeys] using h)
            exact this
          exact hknew (by simp; exact Or.inr (Or.inr (by simpa using this)))
        · have : knew = k := by simpa using h
          exact hknew (by simp [this])
      have hmiss := cacheAccess_miss (c :=
          (as.map (fun kv => (CacheKey.real kv.1, some kv.2))
            ++ bs.map (fun kv => (CacheKey.real kv.1, some kv.2)))
            ++ [(CacheKey.real k, some v)]) vnew hknew2
      rw [show (as.map (fun kv => (CacheKey.real kv.1, some kv.2))
            ++ bs.map (fun kv => (CacheKey.real kv.1, some kv.2))
            ++ [(CacheKey.real k, some v)])
          = ((as.map (fun kv => (CacheKey.real kv.1, some kv.2))
            ++ bs.map (fun kv => (CacheKey.real kv.1, some kv.2)))
            ++ [(CacheKey.real k, some v)]) by simp, hmiss]
      simp [cacheKeys, List.map_tail]

/-- C2, counterexample to the protection clause at maxcache = 1: key 10 is
inserted, re-accessed (a genuine cache hit), and is nevertheless the entry
evicted when the second distinct key 20 is inserted. -/
theorem seriesCache_protection_fails_at_capacity_one :
    (cacheAccess (insertAll (freshCache ℕ ℕ 1) [(10, 100)]) 10 0).2.2 = true ∧
    CacheKey.real 10 ∉ cacheKeys
      ((cacheAccess
          ((cacheAccess (insertAll (freshCache ℕ ℕ 1) [(10, 100)]) 10 0).1)
          20 200).1) := by
  decide

/-- C2, witness: concrete instance of the amended theorem at maxcache = 2. -/
theorem seriesCache_lru_witness :
    insertAll (freshCache ℕ ℕ 1) [(5, 50), (6, 60)]
      = [(CacheKey.real 6, some 60)] ∧
    (cacheAccess (insertAll (freshCache ℕ ℕ 2) [(1, 10), (2, 20)]) 1 0).2.2
      = true := by
  constructor
  · exact (seriesCache_lru_eviction_and_protection 1).1 [(5, 50), (6, 60)]
      (by decide) (by decide) (by decide)
  · exact ((seriesCache_lru_eviction_and_protection 2).2 [(1, 10), (2, 20)]
      1 10 0 30 3 (by decide) (by decide) (by decide) (by decide) (by decide)).1

/-! ### Part 2: the Series drawImage cache key and cache correctness

galsim/series.py, Series.drawImage (lines 179-193).  The cache key is the
tuple (self._series_idx(), args, tuple(sorted(kwargs.items()))).  Keyword
names are modelled as natural numbers and keyword values as rationals;
Python sorted() on the (name, value) pairs is lexicographic. -/

def kwLE (a b : ℕ × ℚ) : Prop :=
  a.1 < b.1 ∨ (a.1 = b.1 ∧ a.2 ≤ b.2)

instance : DecidableRel kwLE := fun a b => by
  unfold kwLE; infer_instance

instance : IsTotal (ℕ × ℚ) kwLE := ⟨by
  intro a b
  rcases lt_trichotomy a.1 b.1 with h | h | h
  · exact Or.inl (Or.inl h)
  · rcases le_total a.2 b.2 with h2 | h2
    · exact Or.inl (Or.inr ⟨h, h2⟩)
    · exact Or.inr (Or.inr ⟨h.symm, h2⟩)
  · exact Or.inr (Or.inl h)⟩

instance : IsTrans (ℕ × ℚ) kwLE := ⟨by
  intro a b c hab hbc
  rcases hab with h | ⟨h1, h2⟩ <;> rcases hbc with g | ⟨g1, g2⟩
  · exact Or.inl (lt_trans h g)
  · exact Or.inl (g1 ▸ h)
  · exact Or.inl (h1 ▸ g)
  · exact Or.inr ⟨h1.trans g1, le_trans h2 g2⟩⟩

instance : IsAntisymm (ℕ × ℚ) kwLE := ⟨by
  intro a b hab hba
  rcases hab with h | ⟨h1, h2⟩ <;> rcases hba with g | ⟨g1, g2⟩
  · exact absurd g (lt_asymm h)
  · exact absurd h (by rw [g1]; exact lt_irrefl _)
  · exact absurd g (by rw [h1]; exact lt_irrefl _)
  · exact Prod.ext h1 (le_antisymm h2 g2)⟩

/-- tuple(sorted(kwargs.items())) from Series.drawImage line 189. -/
def sortKwargs (kw : List (ℕ × ℚ)) : List (ℕ × ℚ) :=
  List.insertionSort kwLE kw

structure SeriesKey where
  idx : ℕ
  args : List ℚ
  kwargs : List (ℕ × ℚ)
deriving DecidableEq

/-- The cache key built at line 189. -/
def mkSeriesKey (idx : ℕ) (args : List ℚ) (kw : List (ℕ × ℚ)) : SeriesKey :=
  ⟨idx, args, sortKwargs kw⟩

theorem sortKwargs_perm (kw : List (ℕ × ℚ)) : (sortKwargs kw).Perm kw :=
  List.perm_insertionSort _ _

theorem sortKwargs_eq_of_perm {kw1 kw2 : List (ℕ × ℚ)} (h : kw1.Perm kw2) :
    sortKwargs kw1 = sortKwargs kw2 :=
  List.eq_of_perm_of_sorted
    ((sortKwargs_perm kw1).trans (h.trans (sortKwargs_perm kw2).symm))
    (List.sorted_insertionSort _ _) (List.sorted_insertionSort _ _)

theorem mkSeriesKey_eq_of_perm (idx : ℕ) (args : List ℚ)
    {kw1 kw2 : List (ℕ × ℚ)} (h : kw1.Perm kw2) :
    mkSeriesKey idx args kw1 = mkSeriesKey idx args kw2 := by
  unfold mkSeriesKey
  rw [sortKwargs_eq_of_perm h]

/-- Changing the value bound to one keyword name changes the sorted kwargs
tuple, hence the cache key, for any idx and args components. -/
theorem mkSeriesKey_ne_of_changed_value (idx1 idx2 : ℕ)
    (args1 args2 : List ℚ) (pre post : List (ℕ × ℚ)) (n : ℕ) (v1 v2 : ℚ)
    (hnd : ((pre ++ (n, v1) :: post).map Prod.fst).Nodup) (hne : v1 ≠ v2) :
    mkSeriesKey idx1 args1 (pre ++ (n, v1) :: post)
      ≠ mkSeriesKey idx2 args2 (pre ++ (n, v2) :: post) := by
  intro heq
  have hkw : sortKwargs (pre ++ (n, v1) :: post)
      = sortKwargs (pre ++ (n, v2) :: post) := congrArg SeriesKey.kwargs heq
  have hperm : (pre ++ (n, v1) :: post).Perm (pre ++ (n, v2) :: post) :=
    (sortKwargs_perm _).symm.trans (hkw ▸ sortKwargs_perm _)
  have hmem : (n, v1) ∈ pre ++ (n, v2) :: post :=
    hperm.mem_iff.mp (by simp)
  have hnmem : n ∈ pre.map Prod.fst ∨ n ∈ post.map Prod.fst := by
    rcases List.mem_append.mp hmem with h | h
    · exact Or.inl (List.mem_map_of_mem Prod.fst h)
    · rcases List.mem_cons.mp h with h | h
      · exact absurd (congrArg Prod.snd h) hne
      · exact Or.inr (List.mem_map_of_mem Prod.fst h)
  have hndk : ((pre.map Prod.fst) ++ n :: (post.map Prod.fst)).Nodup := by
    simpa using hnd
  have hnc := List.nodup_cons.mp (List.nodup_middle.mp hndk)
  exact hnc.1 (List.mem_append.mpr hnmem)

/-- A Series instance as consumed by Series.drawImage: the value of
_series_idx(), the basis profile list from _getBasisFuncs() and the
coefficient list from _getCoeffs().  The type of basis profiles is a
parameter. -/
structure SeriesInst (β : Type) where
  idx : ℕ
  basis : List β
  coeffs : List ℚ

abbrev Cube := List (List ℚ)

/-- The miss branch of _basisCube (lines 105-117): draw every basis
profile with the given args and kwargs and stack the flattened images as
the rows of the cube.  D abstracts GSObject.drawImage followed by
array.ravel(). -/
def computeCube {β : Type} (D : β → List ℚ → List (ℕ × ℚ) → List ℚ)
    (s : SeriesInst β) (args : List ℚ) (kw : List (ℕ × ℚ)) : Cube :=
  s.basis.map (fun b => D b args kw)

def vecScale (c : ℚ) (v : List ℚ) : List ℚ := v.map (fun x => c * x)

def vecAdd (a b : List ℚ) : List ℚ := List.zipWith (fun x y => x + y) a b

/-- np.dot(coeffs, cube) from line 192: the linear combination of the
rows of the cube with the coefficient vector. -/
def matVec : List ℚ → Cube → List ℚ
  | [c], [r] => vecScale c r
  | c :: cs, r :: rs => vecAdd (vecScale c r) (matVec cs rs)
  | _, _ => []

structure SeriesDrawOut where
  cube : Cube
  image : List ℚ
  hit : Bool

/-- Series.drawImage (lines 179-193): build the cache key, fetch or create
the basis cube through the shared cache, and return the linear combination
of its rows.  The stored image shape is omitted: it rides along with the
cube in the source and does not affect which entry is returned. -/
def seriesDrawImage {β : Type} (D : β → List ℚ → List (ℕ × ℚ) → List ℚ)
    (s : SeriesInst β) (args : List ℚ) (kw : List (ℕ × ℚ))
    (c : LRUCache SeriesKey Cube) : SeriesDrawOut × LRUCache SeriesKey Cube :=
  let key := mkSeriesKey s.idx args kw
  let res := cacheAccess c key (computeCube D s args kw)
  ({ cube := res.2.1, image := matVec s.coeffs res.2.1, hit := res.2.2 }, res.1)

theorem real_not_mem_fresh_tail {κ ν : Type} (m : ℕ) (k : κ) :
    CacheKey.real k ∉ cacheKeys (freshCache κ ν m).tail := by
  intro h
  apply real_not_mem_fresh m k
  have htl : cacheKeys (freshCache κ ν m).tail
      = (cacheKeys (freshCache κ ν m)).tail := by
    simp [cacheKeys, List.map_tail]
  rw [htl] at h
  exact List.mem_of_mem_tail h

/-- C4: after one Series instance has populated the cache, a second
instance with the same _series_idx() and the same positional and keyword
draw arguments (the kwargs dict being equal as a finite map, i.e. a
permutation of the items) builds the same cache key, gets a cache hit,
and retrieves exactly the cached basis table with no re-drawing of basis
images (the hit branch never evaluates the freshly drawn cube); changing
the value of any single drawing keyword builds a different cache key,
gets a cache miss, and produces a distinct table entry, both entries then
being present in the cache. -/
theorem seriesCache_key_determinism {β : Type}
    (D : β → List ℚ → List (ℕ × ℚ) → List ℚ)
    (s1 s2 : SeriesInst β) (args : List ℚ) (m : ℕ) :
    (∀ (kw1 kw2 : List (ℕ × ℚ)),
      s1.idx = s2.idx → kw1.Perm kw2 →
      (seriesDrawImage D s2 args kw2
          (seriesDrawImage D s1 args kw1 (freshCache SeriesKey Cube m)).2).1.hit
        = true ∧
      (seriesDrawImage D s2 args kw2
          (seriesDrawImage D s1 args kw1 (freshCache SeriesKey Cube m)).2).1.cube
        = (seriesDrawImage D s1 args kw1 (freshCache SeriesKey Cube m)).1.cube)
    ∧
    (∀ (pre post : List (ℕ × ℚ)) (n : ℕ) (v1 v2 : ℚ),
      s1.idx = s2.idx →
      ((pre ++ (n, v1) :: post).map Prod.fst).Nodup → v1 ≠ v2 → 2 ≤ m →
      mkSeriesKey s2.idx args (pre ++ (n, v2) :: post)
          ≠ mkSeriesKey s1.idx args (pre ++ (n, v1) :: post) ∧
      (seriesDrawImage D s2 args (pre ++ (n, v2) :: post)
          (seriesDrawImage D s1 args (pre ++ (n, v1) :: post)
            (freshCache SeriesKey Cube m)).2).1.hit = false ∧
      CacheKey.real (mkSeriesKey s1.idx args (pre ++ (n, v1) :: post)) ∈
        cacheKeys ((seriesDrawImage D s2 args (pre ++ (n, v2) :: post)
          (seriesDrawImage D s1 args (pre ++ (n, v1) :: post)
            (freshCache SeriesKey Cube m)).2).2) ∧
      CacheKey.real (mkSeriesKey s2.idx args (pre ++ (n, v2) :: post)) ∈
        cacheKeys ((seriesDrawImage D s2 args (pre ++ (n, v2) :: post)
          (seriesDrawImage D s1 args (pre ++ (n, v1) :: post)
            (freshCache SeriesKey Cube m)).2).2)) := by
  constructor
  · -- identical key, cache hit, bit-identical table
    intro kw1 kw2 hidx hperm
    have hkey : mkSeriesKey s2.idx args kw2 = mkSeriesKey s1.idx args kw1 := by
      rw [← hidx]
      exact (mkSeriesKey_eq_of_perm s1.idx args hperm).symm
    have hmiss := cacheAccess_miss (c := freshCache SeriesKey Cube m)
      (computeCube D s1 args kw1)
      (real_not_mem_fresh m (mkSeriesKey s1.idx args kw1))
    have hs1 : (seriesDrawImage D s1 args kw1 (freshCache SeriesKey Cube m)).2
        = (freshCache SeriesKey Cube m).tail
          ++ [(CacheKey.real (mkSeriesKey s1.idx args kw1),
               some (computeCube D s1 args kw1))] := by
      simp [seriesDrawImage, hmiss]
    have hc1 : (seriesDrawImage D s1 args kw1 (freshCache SeriesKey Cube m)).1.cube
        = computeCube D s1 args kw1 := by
      simp [seriesDrawImage, hmiss]
    have hhit := cacheAccess_hit ((freshCache SeriesKey Cube m).tail) []
      (mkSeriesKey s1.idx args kw1) (computeCube D s1 args kw1)
      (computeCube D s2 args kw2)
      (real_not_mem_fresh_tail m _) (by simp [cacheKeys])
    have hfirst : (cacheAccess (freshCache SeriesKey Cube m)
        (mkSeriesKey s1.idx args kw1) (computeCube D s1 args kw1)).1
        = (freshCache SeriesKey Cube m).tail
          ++ (CacheKey.real (mkSeriesKey s1.idx args kw1),
               some (computeCube D s1 args kw1)) :: [] := by
      rw [hmiss]
    constructor
    · simp only [seriesDrawImage, hkey]
      rw [hfirst, hhit]
    · simp only [seriesDrawImage, hkey]
      rw [hfirst, hhit, hmiss]
  · -- changed keyword value: different key, miss, distinct entries
    intro pre post n v1 v2 hidx hnd hne hm
    have hkne : mkSeriesKey s2.idx args (pre ++ (n, v2) :: post)
        ≠ mkSeriesKey s1.idx args (pre ++ (n, v1) :: post) := by
      rw [← hidx]
      exact fun h => mkSeriesKey_ne_of_changed_value s1.idx s1.idx args args
        pre post n v1 v2 hnd hne h.symm
    have hmiss1 := cacheAccess_miss (c := freshCache SeriesKey Cube m)
      (computeCube D s1 args (pre ++ (n, v1) :: post))
      (real_not_mem_fresh m (mkSeriesKey s1.idx args (pre ++ (n, v1) :: post)))
    have hs1 : (seriesDrawImage D s1 args (pre ++ (n, v1) :: post)
        (freshCache SeriesKey Cube m)).2
        = (freshCache SeriesKey Cube m).tail
          ++ [(CacheKey.real (mkSeriesKey s1.idx args (pre ++ (n, v1) :: post)),
               some (computeCube D s1 args (pre ++ (n, v1) :: post)))] := by
      simp [seriesDrawImage, hmiss1]
    have hnot2 : CacheKey.real (mkSeriesKey s2.idx args (pre ++ (n, v2) :: post))
        ∉ cacheKeys ((freshCache SeriesKey Cube m).tail
          ++ [(CacheKey.real (mkSeriesKey s1.idx args (pre ++ (n, v1) :: post)),
               some (computeCube D s1 args (pre ++ (n, v1) :: post)))]) := by
      intro hmem
      have hsplit : cacheKeys ((freshCache SeriesKey Cube m).tail
          ++ [(CacheKey.real (mkSeriesKey s1.idx args (pre ++ (n, v1) :: post)),
               some (computeCube D s1 args (pre ++ (n, v1) :: post)))])
          = cacheKeys (freshCache SeriesKey Cube m).tail
            ++ [CacheKey.real (mkSeriesKey s1.idx args (pre ++ (n, v1) :: post))] := by
        simp [cacheKeys]
      rw [hsplit] at hmem
      rcases List.mem_append.mp hmem with h | h
      · exact real_not_mem_fresh_tail m _ h
      · have : mkSeriesKey s2.idx args (pre ++ (n, v2) :: post)
            = mkSeriesKey s1.idx args (pre ++ (n, v1) :: post) := by
          simpa using h
        exact hkne this
    have hmiss2 := cacheAccess_miss
      (c := (freshCache SeriesKey Cube m).tail
          ++ [(CacheKey.real (mkSeriesKey s1.idx args (pre ++ (n, v1) :: post)),
               some (computeCube D s1 args (pre ++ (n, v1) :: post)))])
      (computeCube D s2 args (pre ++ (n, v2) :: post)) hnot2
    have htailne : (freshCache SeriesKey Cube m).tail ≠ [] := by
      intro h
      have := congrArg List.length h
      rw [List.length_tail, length_freshCache] at this
      simp at this
      omega
    have hfirst : (cacheAccess (freshCache SeriesKey Cube m)
        (mkSeriesKey s1.idx args (pre ++ (n, v1) :: post))
        (computeCube D s1 args (pre ++ (n, v1) :: post))).1
        = (freshCache SeriesKey Cube m).tail
          ++ [(CacheKey.real (mkSeriesKey s1.idx args (pre ++ (n, v1) :: post)),
               some (computeCube D s1 args (pre ++ (n, v1) :: post)))] := by
      rw [hmiss1]
    refine ⟨hkne, ?_, ?_, ?_⟩
    · simp only [seriesDrawImage]
      rw [hfirst, hmiss2]
    · simp only [seriesDrawImage]
      rw [hfirst, hmiss2]
      simp only [cacheKeys, List.map_append]
      rw [tail_append_singleton _ _ htailne]
      simp
    · simp only [seriesDrawImage]
      rw [hfirst, hmiss2]
      simp [cacheKeys]

/-- C4, witness: concrete instance with two identical kwargs lists (a
permutation via reflexivity) and a changed scale-like keyword value. -/
theorem seriesCache_key_determinism_witness :
    (seriesDrawImage (fun (_ : ℕ) _ _ => [(1 : ℚ), 2])
        ⟨7, [0], [1]⟩ [] [(0, 1)]
        (seriesDrawImage (fun (_ : ℕ) _ _ => [(1 : ℚ), 2])
          ⟨7, [0], [1]⟩ [] [(0, 1)] (freshCache SeriesKey Cube 2)).2).1.hit
      = true ∧
    (seriesDrawImage (fun (_ : ℕ) _ _ => [(1 : ℚ), 2])
        ⟨7, [0], [1]⟩ [] [(0, 2)]
        (seriesDrawImage (fun (_ : ℕ) _ _ => [(1 : ℚ), 2])
          ⟨7, [0], [1]⟩ [] [(0, 1)] (freshCache SeriesKey Cube 2)).2).1.hit
      = false := by
  constructor
  · exact ((seriesCache_key_determinism (fun (_ : ℕ) _ _ => [(1 : ℚ), 2])
      ⟨7, [0], [1]⟩ ⟨7, [0], [1]⟩ [] 2).1 [(0, 1)] [(0, 1)] rfl
      (List.Perm.refl _)).1
  · exact (((seriesCache_key_determinism (fun (_ : ℕ) _ _ => [(1 : ℚ), 2])
      ⟨7, [0], [1]⟩ ⟨7, [0], [1]⟩ [] 2).2 [] [] 0 1 2 rfl
      (by decide) (by decide) (by decide)).2).1

/-! ### Part 3: pointer-level model of the two cache lists

galsim/series.py, Series.__init__ lines 59-79 in full, including the
Fourier-space initialisation, and _basisKCube lines 130-177.  Here the
doubly linked lists are modelled at the level of the individual link
objects, because the claim at issue concerns sharing of nodes between the
real-space and the Fourier-space structure.  Links live in a heap
addressed by natural numbers; a link [PREV, NEXT, KEY, RESULT] is a Node
record.  Ids: 0 = real root, 1..m = real links in creation order,
m+1 = kroot, m+2..2m+1 = Fourier links in creation order.  Stored cube
values are abstracted to naturals.  The None pointers of a freshly made
link are encoded as 0; whenever maxcache is at least 1 every pointer that
is ever followed has been assigned first, as in the source. -/

inductive PKey where
  | sentinel (i : ℕ)
  | user (k : ℕ)
deriving DecidableEq

structure Node where
  prev : ℕ
  next : ℕ
  key : Option PKey
  val : Option ℕ
deriving DecidableEq

structure CacheState where
  heap : ℕ → Node
  cache : PKey → Option ℕ
  kcache : PKey → Option ℕ
  root : ℕ
  kroot : ℕ

def hupd (h : ℕ → Node) (i : ℕ) (f : Node → Node) : ℕ → Node :=
  fun j => if j = i then f (h j) else h j

def dupd (d : PKey → Option ℕ) (k : PKey) (v : Option ℕ) : PKey → Option ℕ :=
  fun q => if q = k then v else d q

def emptyNode : Node := { prev := 0, next := 0, key := none, val := none }

/-- One initialisation loop (lines 67-70 for the real cache, 75-78 for the
Fourier one): for each i, create a fresh sentinel-keyed link after the
current last link, pointing back at root.  Returns the heap, the dict and
the id of the last link created. -/
def initLoop (rootId firstId sentBase m : ℕ) (h0 : ℕ → Node)
    (d0 : PKey → Option ℕ) : (ℕ → Node) × (PKey → Option ℕ) × ℕ :=
  (List.range m).foldl
    (fun st i =>
      let newId := firstId + i
      let h1 := hupd st.1 st.2.2 (fun nd => { nd with next := newId })
      let h2 := hupd h1 newId (fun _ =>
        { prev := st.2.2, next := rootId,
          key := some (PKey.sentinel (sentBase + i)), val := none })
      (h2, dupd st.2.1 (PKey.sentinel (sentBase + i)) (some newId), newId))
    (h0, d0, rootId)

/-- Series.__init__, lines 59-79.  Note line 79 of the source reads
kroot[0] = last, using the variable last left over from the real-space
loop rather than klast, so the Fourier root PREV pointer is wired to the
last REAL-space link. -/
def initCaches (m : ℕ) : CacheState :=
  let r := initLoop 0 1 0 m (fun _ => emptyNode) (fun _ => none)
  let h2 := hupd r.1 0 (fun nd => { nd with prev := r.2.2 })
  let kr := initLoop (m+1) (m+2) m m h2 (fun _ => none)
  let h4 := hupd kr.1 (m+1) (fun nd => { nd with prev := r.2.2 })
  { heap := h4, cache := r.2.1, kcache := kr.2.1, root := 0, kroot := m + 1 }

/-- _basisKCube, lines 130-177, operating on the Fourier-space dict and
root.  The drawn (recube, imcube, shape) triple is abstracted to the
single value fresh.  Returns the result and the new state, performing the
pointer writes in exactly the order of the source. -/
def basisKCube (st : CacheState) (key : PKey) (fresh : ℕ) : ℕ × CacheState :=
  match st.kcache key with
  | some linkId =>
      let link := st.heap linkId
      let lp := link.prev
      let ln := link.next
      let res := link.val
      let h1 := hupd st.heap lp (fun nd => { nd with next := ln })
      let h2 := hupd h1 ln (fun nd => { nd with prev := lp })
      let last := (h2 st.kroot).prev
      let h3 := hupd h2 last (fun nd => { nd with next := linkId })
      let h4 := hupd h3 st.kroot (fun nd => { nd with prev := linkId })
      let h5 := hupd h4 linkId (fun nd => { nd with prev := last, next := st.kroot })
      (res.getD 0, { st with heap := h5 })
  | none =>
      let rootId := st.kroot
      let h1 := hupd st.heap rootId
        (fun nd => { nd with key := some key, val := some fresh })
      let newRoot := (h1 rootId).next
      let oldKey := (h1 newRoot).key
      let h2 := hupd h1 newRoot (fun nd => { nd with key := none, val := none })
      let kc1 := match oldKey with
        | some ok => dupd st.kcache ok none
        | none => st.kcache
      let kc2 := dupd kc1 key (some rootId)
      (fresh, { st with heap := h2, kcache := kc2, kroot := newRoot })

/-- C9 (defect exhibition): with maxcache = 1, after inserting one
Fourier-space entry, a HIT on that entry rewrites the NEXT pointer of the
real-space link (node 1) from the real root (node 0) to the original
Fourier root (node 2): the promotion inside the Fourier-space list
mutates a node of the real-space list, because line 79 initialises
kroot[0] from the real-space variable last instead of klast. -/
theorem kcache_hit_mutates_real_list :
    ((initCaches 1).heap 1).next = 0 ∧
    ((basisKCube (initCaches 1) (PKey.user 5) 42).2.heap 1).next = 0 ∧
    ((basisKCube (basisKCube (initCaches 1) (PKey.user 5) 42).2
        (PKey.user 5) 0).2.heap 1).next = 2 := by
  decide

/-! ### Part 4: series expansions and their convolution

galsim/series.py: SeriesConvolution (lines 280-342), SpergelSeries
(345-483), MoffatSeries (516-658), LinearOpticalSeries (717-826). -/

/-- Basis profiles (GSObject values) as produced by the _getBasisFuncs
methods: Spergelet (lines 486-513), Moffatlet (661-688), LinearOpticalet
(829-848), arbitrary plain GSObjects and galsim.Convolve applied to one
tuple of basis profiles (line 336). -/
inductive Prof where
  | spergelet (nu scale_radius : ℚ) (j : ℕ) (q : ℤ)
  | moffatlet (beta scale_radius : ℚ) (j : ℕ) (q : ℤ)
  | linearOpticalet (lam_over_diam : ℚ) (n1 : ℕ) (m1 : ℤ) (n2 : ℕ) (m2 : ℤ)
  | gsobj (id : ℕ)
  | convolve (objs : List Prof)

/-- Opaque stand-ins for the float library functions and constants in the
coefficient formulas (math.cos, math.sin, np.sqrt, np.pi) and for the
nollZernike index table (line 714, j to (n, m)).  Every property proved
below holds for every interpretation of these. -/
structure FloatEnv where
  cosQ : ℚ → ℚ
  sinQ : ℚ → ℚ
  sqrtQ : ℚ → ℚ
  piQ : ℚ
  noll : ℕ → ℕ × ℤ

/-- The (j, q) double loop of _getCoeffs and _getBasisFuncs: j from 0 to
jmax, q from -j to j (lines 367-368, 394-395, 542-543, 569-570). -/
def jqList (jmax : ℕ) : List (ℕ × ℤ) :=
  (List.range (jmax + 1)).flatMap (fun j =>
    (List.range (2 * j + 1)).map (fun t => (j, (t : ℤ) - (j : ℤ))))

/-- One summand of the inner m-loop of SpergelSeries._getCoeffs
(lines 370-381), for m with (m+q) even: n = (q+m)/2,
num = (Delta-1)^m [ * Delta^(j-m) unless Delta = 0 and j = m ]
[ * ellip^m unless ellip = 0 and m = 0 ],
den = 2^(m-1) * (j-m)! * (m-n)! * n!. -/
def spergelTerm (ellip Delta : ℚ) (j : ℕ) (q : ℤ) (m : ℕ) : ℚ :=
  let n : ℕ := ((q + (m : ℤ)) / 2).toNat
  let num0 : ℚ := (Delta - 1) ^ m
  let num1 : ℚ := if Delta = 0 ∧ j = m then num0 else num0 * Delta ^ (j - m)
  let num2 : ℚ := if ellip = 0 ∧ m = 0 then num1 else num1 * ellip ^ m
  let den : ℚ := (2 : ℚ) ^ ((m : ℤ) - 1) * (Nat.factorial (j - m))
      * (Nat.factorial (m - n)) * (Nat.factorial n)
  num2 / den

/-- The m-loop values actually summed: m from abs(q) to j, skipping odd
(m+q) (lines 370-372). -/
def mList (j : ℕ) (q : ℤ) : List ℕ :=
  (List.range (j + 1)).filter (fun m => q.natAbs ≤ m ∧ ((m : ℤ) + q) % 2 ≠ 1)

/-- One coefficient of SpergelSeries._getCoeffs (lines 369-388), given
the decomposition values. -/
def spergelCoeff (E : FloatEnv) (flux ellip phi0 Delta : ℚ)
    (j : ℕ) (q : ℤ) : ℚ :=
  let base := (mList j q).foldl (fun acc m => acc + spergelTerm ellip Delta j q m) 0
  if 0 < q then base * (flux * E.cosQ (2 * (q : ℚ) * phi0))
  else if q < 0 then base * (flux * E.sinQ (2 * (q : ℚ) * phi0))
  else base * (flux * (1 / 2))

/-- SpergelSeries._getCoeffs (lines 364-389). -/
def spergelCoeffs (E : FloatEnv) (flux ellip phi0 Delta : ℚ)
    (jmax : ℕ) : List ℚ :=
  (jqList jmax).map (fun jq => spergelCoeff E flux ellip phi0 Delta jq.1 jq.2)

/-- SpergelSeries._getBasisFuncs (lines 391-398). -/
def spergelBasisFuncs (nu scale_radius : ℚ) (jmax : ℕ) : List Prof :=
  (jqList jmax).map (fun jq => Prof.spergelet nu scale_radius jq.1 jq.2)

/-- One summand of the inner m-loop of MoffatSeries._getCoeffs
(lines 545-556): same shape as the Spergel one with
num = (1-Delta)^(m+1) in place of (Delta-1)^m. -/
def moffatTerm (ellip Delta : ℚ) (j : ℕ) (q : ℤ) (m : ℕ) : ℚ :=
  let n : ℕ := ((q + (m : ℤ)) / 2).toNat
  let num0 : ℚ := (1 - Delta) ^ (m + 1)
  let num1 : ℚ := if Delta = 0 ∧ j = m then num0 else num0 * Delta ^ (j - m)
  let num2 : ℚ := if ellip = 0 ∧ m = 0 then num1 else num1 * ellip ^ m
  let den : ℚ := (2 : ℚ) ^ ((m : ℤ) - 1) * (Nat.factorial (j - m))
      * (Nat.factorial (m - n)) * (Nat.factorial n)
  num2 / den

/-- One coefficient of MoffatSeries._getCoeffs (lines 544-563): the
q-dependent factor carries an extra sqrt(1 - ellip^2). -/
def moffatCoeff (E : FloatEnv) (flux ellip phi0 Delta : ℚ)
    (j : ℕ) (q : ℤ) : ℚ :=
  let base := (mList j q).foldl (fun acc m => acc + moffatTerm ellip Delta j q m) 0
  if 0 < q then base * (flux * E.sqrtQ (1 - ellip ^ 2) * E.cosQ (2 * (q : ℚ) * phi0))
  else if q < 0 then base * (flux * E.sqrtQ (1 - ellip ^ 2) * E.sinQ (2 * (q : ℚ) * phi0))
  else base * (flux * E.sqrtQ (1 - ellip ^ 2) * (1 / 2))

/-- MoffatSeries._getCoeffs (lines 539-564). -/
def moffatCoeffs (E : FloatEnv) (flux ellip phi0 Delta : ℚ)
    (jmax : ℕ) : List ℚ :=
  (jqList jmax).map (fun jq => moffatCoeff E flux ellip phi0 Delta jq.1 jq.2)

/-- MoffatSeries._getBasisFuncs (lines 566-573). -/
def moffatBasisFuncs (beta scale_radius : ℚ) (jmax : ℕ) : List Prof :=
  (jqList jmax).map (fun jq => Prof.moffatlet beta scale_radius jq.1 jq.2)

/-- The per-branch state built by the classification loop of
LinearOpticalSeries.__init__ (lines 779-802). -/
structure LinOptState where
  realcoeffs : List ℚ
  imagcoeffs : List ℚ
  realindices : List (ℕ × ℤ)
  imagindices : List (ℕ × ℤ)

/-- One iteration of the classification loop of
LinearOpticalSeries.__init__ (lines 784-802): skip j < 2, look up the
Noll indices (n, m), classify by ipower = (m+1) mod 4 and append
norm(n,m)*ab with the matching sign to the real or imaginary branch, the
index being appended alongside in the same branch. -/
def linOptStep (E : FloatEnv) (st : LinOptState) (ja : ℕ × ℚ) : LinOptState :=
  if ja.1 < 2 then st
  else
    let n := (E.noll ja.1).1
    let m := (E.noll ja.1).2
    let nrm : ℚ := if m = 0 then E.sqrtQ ((n : ℚ) + 1)
      else E.sqrtQ (2 * (n : ℚ) + 2)
    let ip := (m + 1) % 4
    if ip = 0 then
      { st with realcoeffs := st.realcoeffs ++ [nrm * ja.2],
                realindices := st.realindices ++ [(n, m)] }
    else if ip = 1 then
      { st with imagcoeffs := st.imagcoeffs ++ [nrm * ja.2],
                imagindices := st.imagindices ++ [(n, m)] }
    else if ip = 2 then
      { st with realcoeffs := st.realcoeffs ++ [-(nrm * ja.2)],
                realindices := st.realindices ++ [(n, m)] }
    else
      { st with imagcoeffs := st.imagcoeffs ++ [-(nrm * ja.2)],
                imagindices := st.imagindices ++ [(n, m)] }

/-- LinearOpticalSeries.__init__ lines 779-802: starting from
realcoeffs = [1.0], realindices = [(0,0)], walk the enumerated scaled
aberrations through the classification step. -/
def linOptClassify (E : FloatEnv) (aberrations : List ℚ) : LinOptState :=
  aberrations.enum.foldl (linOptStep E)
    { realcoeffs := [1], imagcoeffs := [], realindices := [(0, 0)],
      imagindices := [] }

/-- itertools.combinations(l, 2), in order. -/
def pairs {α : Type} : List α → List (α × α)
  | [] => []
  | x :: xs => xs.map (fun y => (x, y)) ++ pairs xs

/-- The aberration scaling of line 771: np.array(aberrations) * 2 * pi. -/
def scaleAberrations (E : FloatEnv) (aberrations : List ℚ) : List ℚ :=
  aberrations.map (fun a => a * 2 * E.piQ)

/-- self.coeffs as assembled at lines 803-808: squared real coefficients,
squared imaginary coefficients, then doubled products over combinations
of each branch. -/
def linOptCoeffs (E : FloatEnv) (aberrations : List ℚ) : List ℚ :=
  let st := linOptClassify E (scaleAberrations E aberrations)
  (st.realcoeffs.map (fun c => c ^ 2))
    ++ (st.imagcoeffs.map (fun c => c ^ 2))
    ++ ((pairs st.realcoeffs).map (fun p => 2 * (p.1 * p.2)))
    ++ ((pairs st.imagcoeffs).map (fun p => 2 * (p.1 * p.2)))

/-- self.indices as assembled at lines 811-814. -/
def linOptIndices (E : FloatEnv) (aberrations : List ℚ) :
    List ((ℕ × ℤ) × (ℕ × ℤ)) :=
  let st := linOptClassify E (scaleAberrations E aberrations)
  (st.realindices.map (fun i => (i, i)))
    ++ (st.imagindices.map (fun i => (i, i)))
    ++ pairs st.realindices
    ++ pairs st.imagindices

/-- LinearOpticalSeries._getBasisFuncs (lines 821-823). -/
def linOptBasisFuncs (E : FloatEnv) (lam_over_diam : ℚ)
    (aberrations : List ℚ) : List Prof :=
  (linOptIndices E aberrations).map (fun o =>
    Prof.linearOpticalet lam_over_diam o.1.1 o.1.2 o.2.1 o.2.2)

/-- A Series operand of a SeriesConvolution: one of the concrete Series
subclasses in any reachable state (for SpergelSeries and MoffatSeries the
values ellip, phi0, scale_radius, Delta produced by _decomposeA are
carried directly), or a plain GSObject, which SeriesConvolution.__init__
turns into a trivial series with coefficient list [1.0] and basis list
[obj] (lines 311-321). -/
inductive SeriesLeaf where
  | spergelS (flux ellip phi0 scale_radius Delta nu : ℚ) (jmax : ℕ)
  | moffatS (flux ellip phi0 scale_radius Delta beta : ℚ) (jmax : ℕ)
  | linOptS (lam_over_diam : ℚ) (aberrations : List ℚ)
  | gsobjS (p : Prof)

def leafCoeffs (E : FloatEnv) : SeriesLeaf → List ℚ
  | .spergelS flux ellip phi0 _ Delta _ jmax =>
      spergelCoeffs E flux ellip phi0 Delta jmax
  | .moffatS flux ellip phi0 _ Delta _ jmax =>
      moffatCoeffs E flux ellip phi0 Delta jmax
  | .linOptS _ ab => linOptCoeffs E ab
  | .gsobjS _ => [1]

def leafBasisFuncs (E : FloatEnv) : SeriesLeaf → List Prof
  | .spergelS _ _ _ sr _ nu jmax => spergelBasisFuncs nu sr jmax
  | .moffatS _ _ _ sr _ beta jmax => moffatBasisFuncs beta sr jmax
  | .linOptS lod ab => linOptBasisFuncs E lod ab
  | .gsobjS p => [p]

/-- A Series object: a leaf, or a SeriesConvolution with its operand
list.  Operand lists stored in constructed SeriesConvolutions are flat
(no SeriesConvolution members) because the constructor unpacks nested
convolutions eagerly (lines 303-309), making flatness an invariant of
every reachable object. -/
inductive SeriesObj where
  | leaf (l : SeriesLeaf)
  | conv (objlist : List SeriesLeaf)

/-- SeriesConvolution.__init__ operand unpacking (lines 303-309): extend
with the stored objlist of any SeriesConvolution argument, append every
other argument as is. -/
def seriesConvolution (args : List SeriesObj) : SeriesObj :=
  SeriesObj.conv (args.flatMap (fun o =>
    match o with
    | .leaf l => [l]
    | .conv ls => ls))

/-- itertools.product of the basis lists, row-major: the first factor
varies slowest, matching C-order raveling. -/
def cartProd {α : Type} : List (List α) → List (List α)
  | [] => [[]]
  | l :: ls => l.flatMap (fun x => (cartProd ls).map (fun t => x :: t))

/-- np.multiply.reduce(np.ix_(arrays)).ravel() from
SeriesConvolution._getCoeffs (lines 325-333): the outer product of the
per-operand coefficient arrays, flattened in C order. -/
def ixReduceRavel : List (List ℚ) → List ℚ
  | [] => [1]
  | c :: cs => c.flatMap (fun x => (ixReduceRavel cs).map (fun y => x * y))

/-- _getCoeffs and _getBasisFuncs of a Series object; for a
SeriesConvolution they are the outer-product coefficients (lines 325-333)
and the convolutions of the Cartesian product of the operand basis lists
(lines 335-337). -/
def seriesObjCoeffs (E : FloatEnv) : SeriesObj → List ℚ
  | .leaf l => leafCoeffs E l
  | .conv ls => ixReduceRavel (ls.map (leafCoeffs E))

def seriesObjBasisFuncs (E : FloatEnv) : SeriesObj → List Prof
  | .leaf l => leafBasisFuncs E l
  | .conv ls => (cartProd (ls.map (leafBasisFuncs E))).map Prof.convolve

theorem ixReduceRavel_eq_prod :
    ∀ (ls : List (List ℚ)), ixReduceRavel ls = (cartProd ls).map List.prod := by
  intro ls
  induction ls with
  | nil => simp [ixReduceRavel, cartProd]
  | cons c cs ih =>
    show c.flatMap (fun x => (ixReduceRavel cs).map (fun y => x * y))
        = (c.flatMap (fun x => (cartProd cs).map (fun t => x :: t))).map List.prod
    rw [List.map_flatMap, ih]
    congr 1
    funext x
    simp [List.map_map, Function.comp]

theorem length_cartProd {α : Type} :
    ∀ (ls : List (List α)), (cartProd ls).length = (ls.map List.length).prod := by
  intro ls
  induction ls with
  | nil => simp [cartProd]
  | cons l ls ih =>
    show (l.flatMap (fun x => (cartProd ls).map (fun t => x :: t))).length
        = ((l :: ls).map List.length).prod
    rw [List.length_flatMap]
    have hconst : (List.length ∘ fun x => (cartProd ls).map (fun t => x :: t))
        = fun _ : α => (cartProd ls).length := by
      funext x
      simp
    rw [hconst, List.map_const', List.sum_replicate, smul_eq_mul, ih]
    simp [List.prod_cons]

theorem length_ixReduceRavel :
    ∀ (ls : List (List ℚ)), (ixReduceRavel ls).length = (ls.map List.length).prod := by
  intro ls
  rw [ixReduceRavel_eq_prod, List.length_map, length_cartProd]

theorem pairs_length_eq {α β : Type} :
    ∀ (l1 : List α) (l2 : List β), l1.length = l2.length →
    (pairs l1).length = (pairs l2).length := by
  intro l1
  induction l1 with
  | nil =>
    intro l2 h
    cases l2 with
    | nil => rfl
    | cons y ys => simp at h
  | cons x xs ih =>
    intro l2 h
    cases l2 with
    | nil => simp at h
    | cons y ys =>
      have hxy : xs.length = ys.length := by simpa using h
      simp only [pairs, List.length_append, List.length_map]
      rw [hxy, ih ys hxy]

theorem linOptStep_inv (E : FloatEnv) (st : LinOptState) (ja : ℕ × ℚ)
    (h1 : st.realcoeffs.length = st.realindices.length)
    (h2 : st.imagcoeffs.length = st.imagindices.length) :
    (linOptStep E st ja).realcoeffs.length
      = (linOptStep E st ja).realindices.length ∧
    (linOptStep E st ja).imagcoeffs.length
      = (linOptStep E st ja).imagindices.length := by
  unfold linOptStep
  by_cases h0 : ja.1 < 2
  · rw [if_pos h0]; exact ⟨h1, h2⟩
  · rw [if_neg h0]
    dsimp only
    by_cases e0 : ((E.noll ja.1).2 + 1) % 4 = 0
    · rw [if_pos e0]; constructor <;> simp [h1, h2]
    · rw [if_neg e0]
      by_cases e1 : ((E.noll ja.1).2 + 1) % 4 = 1
      · rw [if_pos e1]; constructor <;> simp [h1, h2]
      · rw [if_neg e1]
        by_cases e2 : ((E.noll ja.1).2 + 1) % 4 = 2
        · rw [if_pos e2]; constructor <;> simp [h1, h2]
        · rw [if_neg e2]; constructor <;> simp [h1, h2]

theorem linOptClassify_inv (E : FloatEnv) (ab : List ℚ) :
    (linOptClassify E ab).realcoeffs.length
      = (linOptClassify E ab).realindices.length ∧
    (linOptClassify E ab).imagcoeffs.length
      = (linOptClassify E ab).imagindices.length := by
  unfold linOptClassify
  generalize ab.enum = l
  have hgen : ∀ (l : List (ℕ × ℚ)) (st : LinOptState),
      st.realcoeffs.length = st.realindices.length →
      st.imagcoeffs.length = st.imagindices.length →
      (l.foldl (linOptStep E) st).realcoeffs.length
        = (l.foldl (linOptStep E) st).realindices.length ∧
      (l.foldl (linOptStep E) st).imagcoeffs.length
        = (l.foldl (linOptStep E) st).imagindices.length := by
    intro l
    induction l with
    | nil => intro st h1 h2; exact ⟨h1, h2⟩
    | cons ja rest ih =>
      intro st h1 h2
      have hstep := linOptStep_inv E st ja h1 h2
      exact ih (linOptStep E st ja) hstep.1 hstep.2
  exact hgen l _ (by simp) (by simp)

theorem leaf_coeffs_basis_length (E : FloatEnv) (l : SeriesLeaf) :
    (leafCoeffs E l).length = (leafBasisFuncs E l).length := by
  cases l with
  | spergelS flux ellip phi0 sr Delta nu jmax =>
    simp [leafCoeffs, leafBasisFuncs, spergelCoeffs, spergelBasisFuncs]
  | moffatS flux ellip phi0 sr Delta beta jmax =>
    simp [leafCoeffs, leafBasisFuncs, moffatCoeffs, moffatBasisFuncs]
  | linOptS lod ab =>
    have h := linOptClassify_inv E (scaleAberrations E ab)
    have hp1 := pairs_length_eq _ _ h.1
    have hp2 := pairs_length_eq _ _ h.2
    simp only [leafCoeffs, leafBasisFuncs, linOptCoeffs, linOptBasisFuncs,
      linOptIndices, List.length_append, List.length_map]
    omega
  | gsobjS p => rfl

/-- C8: for every Series object in every reachable state, covering
SpergelSeries, MoffatSeries, LinearOpticalSeries, plain GSObjects wrapped
as trivial series, and SeriesConvolution over any operands, the list
returned by _getCoeffs has exactly the same length as the list returned
by _getBasisFuncs. -/
theorem series_len_coeffs_eq_len_basis (E : FloatEnv) (s : SeriesObj) :
    (seriesObjCoeffs E s).length = (seriesObjBasisFuncs E s).length := by
  cases s with
  | leaf l => exact leaf_coeffs_basis_length E l
  | conv ls =>
    show (ixReduceRavel (ls.map (leafCoeffs E))).length
        = ((cartProd (ls.map (leafBasisFuncs E))).map Prof.convolve).length
    rw [List.length_map, length_ixReduceRavel, length_cartProd,
      List.map_map, List.map_map]
    have : (List.length ∘ leafCoeffs E) = (List.length ∘ leafBasisFuncs E) := by
      funext l
      exact leaf_coeffs_basis_length E l
    rw [this]

/-- C3: for every SeriesConvolution built from any operands,
_getBasisFuncs returns the convolutions of the tuples of the Cartesian
product of the operand basis lists, _getCoeffs returns the elementwise
products of the corresponding per-operand coefficients in the same
Cartesian-product order, and nesting flattens:
SeriesConvolution(SeriesConvolution(a, b), c) produces the same operand
list, hence the same basis and coefficient expansion, as
SeriesConvolution(a, b, c). -/
theorem seriesConvolution_expansion (E : FloatEnv) :
    (∀ (ls : List SeriesLeaf),
      seriesObjBasisFuncs E (SeriesObj.conv ls)
        = (cartProd (ls.map (leafBasisFuncs E))).map Prof.convolve
      ∧ seriesObjCoeffs E (SeriesObj.conv ls)
        = (cartProd (ls.map (leafCoeffs E))).map List.prod)
    ∧
    (∀ a b c : SeriesObj,
      seriesConvolution [seriesConvolution [a, b], c]
        = seriesConvolution [a, b, c]
      ∧ seriesObjCoeffs E (seriesConvolution [seriesConvolution [a, b], c])
        = seriesObjCoeffs E (seriesConvolution [a, b, c])
      ∧ seriesObjBasisFuncs E (seriesConvolution [seriesConvolution [a, b], c])
        = seriesObjBasisFuncs E (seriesConvolution [a, b, c])) := by
  constructor
  · intro ls
    exact ⟨rfl, ixReduceRavel_eq_prod (ls.map (leafCoeffs E))⟩
  · intro a b c
    have hobj : seriesConvolution [seriesConvolution [a, b], c]
        = seriesConvolution [a, b, c] := by
      cases a <;> cases b <;> cases c <;> simp [seriesConvolution]
    exact ⟨hobj, by rw [hobj], by rw [hobj]⟩

/-! ### Part 5: affine-state normalisation of SpergelSeries and MoffatSeries

galsim/series.py: copy (404-410, 579-585), _applyMatrix (412-417,
587-592), dilate / shear / rotate (419-446, 594-621), _decomposeA
(448-483, 623-658).  The decomposition computes real values mu, phi0,
beta, eta, ellip and the continuous radius r0 from the accumulated 2x2
matrix using sqrt, atan2 and acosh; those steps are abstracted, and
snapIndex below receives x = log(r0)/dlnr as an opaque rational.  It
reproduces lines 468-477 (np.modf followed by the two fixups), which are
character-for-character identical in SpergelSeries._decomposeA and
MoffatSeries._decomposeA (lines 643-652). -/

/-- The integer part computed by np.modf: truncation toward zero. -/
def qtrunc (x : ℚ) : ℤ := if 0 ≤ x then ⌊x⌋ else ⌈x⌉

/-- Lines 468-477: f, i = np.modf(log(r0)/dlnr); if f < 0: f += 1,
i -= 1; if f > 0.5: f -= 1, i += 1; the function returns the final i,
and line 477 then sets scale_radius = exp(dlnr * i). -/
def snapIndex (x : ℚ) : ℤ :=
  if x - (qtrunc x : ℚ) < 0 then
    (if (x - (qtrunc x : ℚ) + 1) > 1 / 2 then (qtrunc x - 1) + 1
     else qtrunc x - 1)
  else
    (if x - (qtrunc x : ℚ) > 1 / 2 then qtrunc x + 1 else qtrunc x)

/-- log(scale_radius) as set at line 477: dlnr * i. -/
def logScaleRadius (logr0 dlnr : ℚ) : ℚ :=
  dlnr * (snapIndex (logr0 / dlnr) : ℚ)

theorem abs_sub_snapIndex_le_half (x : ℚ) :
    |x - (snapIndex x : ℚ)| ≤ 1 / 2 := by
  unfold snapIndex qtrunc
  by_cases hx : 0 ≤ x
  · have hf1 : (⌊x⌋ : ℚ) ≤ x := Int.floor_le x
    have hf2 : x < (⌊x⌋ : ℚ) + 1 := Int.lt_floor_add_one x
    rw [if_pos hx]
    have hnn : ¬ (x - ((⌊x⌋ : ℤ) : ℚ) < 0) := by
      intro hc
      linarith
    rw [if_neg hnn]
    by_cases hhalf : x - ((⌊x⌋ : ℤ) : ℚ) > 1 / 2
    · rw [if_pos hhalf]
      rw [abs_le]
      push_cast at hhalf ⊢
      constructor <;> linarith
    · rw [if_neg hhalf]
      rw [abs_le]
      push_cast at hhalf ⊢
      constructor <;> linarith
  · have hc1 : x ≤ (⌈x⌉ : ℚ) := Int.le_ceil x
    have hc2 : (⌈x⌉ : ℚ) - 1 < x := by
      have := Int.ceil_lt_add_one x
      linarith
    rw [if_neg hx]
    by_cases hf0 : x - ((⌈x⌉ : ℤ) : ℚ) < 0
    · rw [if_pos hf0]
      by_cases hhalf : x - ((⌈x⌉ : ℤ) : ℚ) + 1 > 1 / 2
      · rw [if_pos hhalf]
        rw [abs_le]
        push_cast at hhalf hf0 ⊢
        constructor <;> linarith
      · rw [if_neg hhalf]
        rw [abs_le]
        push_cast at hhalf hf0 ⊢
        constructor <;> linarith
    · rw [if_neg hf0]
      have heq : x = ((⌈x⌉ : ℤ) : ℚ) := by push_cast at hf0 ⊢; linarith
      by_cases hhalf : x - ((⌈x⌉ : ℤ) : ℚ) > 1 / 2
      · rw [if_pos hhalf]
        rw [abs_le]
        push_cast at hhalf ⊢
        constructor <;> linarith
      · rw [if_neg hhalf]
        rw [abs_le]
        push_cast at hhalf ⊢
        constructor <;> linarith

/-- The accumulated 2x2 transform matrix self._A. -/
structure Mat2 where
  a : ℚ
  b : ℚ
  c : ℚ
  d : ℚ
deriving DecidableEq

/-- Matrix product; ret._A *= J is A := A * J (numpy matrix in-place
multiplication is a right matrix product). -/
def matMul (A B : Mat2) : Mat2 :=
  { a := A.a * B.a + A.b * B.c, b := A.a * B.b + A.b * B.d,
    c := A.c * B.a + A.d * B.c, d := A.c * B.b + A.d * B.d }

/-- The mutable state of a SpergelSeries or MoffatSeries relevant to the
decomposition: the matrix _A and the lazily cached decomposition (the
attributes ellip, phi0, scale_radius, Delta set at lines 479-482, whose
joint presence is tested through hasattr ellip).  The decomposition type
is a parameter, since its values are transcendental reals. -/
structure SpergelState (δ : Type) where
  A : Mat2
  cached : Option δ

/-- The object returned by _applyMatrix (lines 412-417): a copy whose
matrix is A * J and whose cached decomposition has been deleted
(del ret.ellip whenever present). -/
def applyMatrixPure {δ : Type} (s : SpergelState δ) (J : Mat2) :
    SpergelState δ :=
  { A := matMul s.A J, cached := none }

/-- _decomposeA (lines 448-483, 623-658): if no cached decomposition is
present, compute one from the current matrix (dfn abstracts the body,
lines 450-478) and store it on the object; otherwise return the cached
one unchanged. -/
def decomposeA {δ : Type} (dfn : Mat2 → δ) (s : SpergelState δ) :
    δ × SpergelState δ :=
  match s.cached with
  | some dec => (dec, s)
  | none => (dfn s.A, { s with cached := some (dfn s.A) })

/-- np.diag([scale, scale]) from dilate (lines 419-421). -/
def dilateMat (scale : ℚ) : Mat2 :=
  { a := scale, b := 0, c := 0, d := scale }

/-- The rotation matrix of rotate (lines 440-446); cth and sth stand for
cos(theta) and sin(theta). -/
def rotMat (cth sth : ℚ) : Mat2 :=
  { a := cth, b := -sth, c := sth, d := cth }

def dilate {δ : Type} (s : SpergelState δ) (scale : ℚ) : SpergelState δ :=
  applyMatrixPure s (dilateMat scale)

def rotate {δ : Type} (s : SpergelState δ) (cth sth : ℚ) : SpergelState δ :=
  applyMatrixPure s (rotMat cth sth)

/-- shear (lines 423-438) applies shear._shear.getMatrix(), taken here as
an opaque matrix J. -/
def shear {δ : Type} (s : SpergelState δ) (J : Mat2) : SpergelState δ :=
  applyMatrixPure s J

/-- C5: for every SpergelSeries or MoffatSeries, (i) the snapped index is
the nearest integer to log(r0)/dlnr, the resulting log scale radius lies
exactly on the grid of integer multiples of dlnr, and the log distance
between r0 and the snapped scale_radius is at most dlnr/2; and (ii) every
transform of the matrix (dilate, rotate, shear) returns an object with no
cached decomposition, so a subsequent _decomposeA recomputes it from the
new matrix A * J and never returns a stale decomposition. -/
theorem decomposeA_grid_and_invalidation {δ : Type} (dfn : Mat2 → δ) :
    (∀ (logr0 dlnr : ℚ), 0 < dlnr →
      (∃ i : ℤ, logScaleRadius logr0 dlnr = dlnr * (i : ℚ)) ∧
      |logr0 / dlnr - (snapIndex (logr0 / dlnr) : ℚ)| ≤ 1 / 2 ∧
      |logr0 - logScaleRadius logr0 dlnr| ≤ dlnr / 2)
    ∧
    (∀ (s : SpergelState δ) (scale cth sth : ℚ) (J : Mat2),
      (dilate s scale).cached = none ∧
      (rotate s cth sth).cached = none ∧
      (shear s J).cached = none ∧
      (decomposeA dfn (dilate s scale)).1
        = dfn (matMul s.A (dilateMat scale)) ∧
      (decomposeA dfn (rotate s cth sth)).1
        = dfn (matMul s.A (rotMat cth sth)) ∧
      (decomposeA dfn (shear s J)).1 = dfn (matMul s.A J)) := by
  constructor
  · intro logr0 dlnr hpos
    refine ⟨⟨snapIndex (logr0 / dlnr), rfl⟩, abs_sub_snapIndex_le_half _, ?_⟩
    have hb := abs_sub_snapIndex_le_half (logr0 / dlnr)
    have hrw : logr0 - logScaleRadius logr0 dlnr
        = dlnr * (logr0 / dlnr - (snapIndex (logr0 / dlnr) : ℚ)) := by
      unfold logScaleRadius
      field_simp
    rw [hrw, abs_mul, abs_of_pos hpos]
    calc dlnr * |logr0 / dlnr - (snapIndex (logr0 / dlnr) : ℚ)|
        ≤ dlnr * (1 / 2) := by
          exact mul_le_mul_of_nonneg_left hb (le_of_lt hpos)
      _ = dlnr / 2 := by ring
  · intro s scale cth sth J
    exact ⟨rfl, rfl, rfl, rfl, rfl, rfl⟩

/-- C5, witness: dlnr = 2, log(r0) = 3, so x = 3/2 sits exactly half way
between grid points and snaps to index 1; plus a concrete invalidation. -/
theorem decomposeA_grid_witness :
    ((0 : ℚ) < 2) ∧
    |(3 : ℚ) / 2 - (snapIndex ((3 : ℚ) / 2) : ℚ)| ≤ 1 / 2 ∧
    (dilate (δ := Unit) ⟨⟨1, 0, 0, 1⟩, some ()⟩ 2).cached = none := by
  refine ⟨by norm_num, ?_, ?_⟩
  · exact (((decomposeA_grid_and_invalidation (δ := Unit)
      (fun _ => ())).1 3 2 (by norm_num)).2).1
  · exact ((decomposeA_grid_and_invalidation (δ := Unit) (fun _ => ())).2
      ⟨⟨1, 0, 0, 1⟩, some ()⟩ 2 0 0 ⟨1, 0, 0, 1⟩).1

/-! ### Part 6: receiver preservation of the transforming methods

The Python objects are mutable, so the frame property of claim C10 is
modelled on an explicit object heap: copy() (lines 404-410) allocates a
new object whose attributes are copy.copy-s of the receiver attributes
(for the numpy matrix _A this is a fresh array, so the in-place
ret._A *= J cannot alias the receiver matrix), and _applyMatrix then
mutates only that copy. -/

structure ObjHeap (δ : Type) where
  mem : ℕ → SpergelState δ
  nextId : ℕ

/-- _applyMatrix on the heap: allocate the copy at the next free id,
right-multiply its matrix in place and delete its cached decomposition;
no other slot is written.  Returns the heap and the id of the returned
object. -/
def applyMatrixHeap {δ : Type} (h : ObjHeap δ) (i : ℕ) (J : Mat2) :
    ObjHeap δ × ℕ :=
  ({ mem := fun j => if j = h.nextId then applyMatrixPure (h.mem i) J
       else h.mem j,
     nextId := h.nextId + 1 }, h.nextId)

def dilateHeap {δ : Type} (h : ObjHeap δ) (i : ℕ) (scale : ℚ) :
    ObjHeap δ × ℕ :=
  applyMatrixHeap h i (dilateMat scale)

def rotateHeap {δ : Type} (h : ObjHeap δ) (i : ℕ) (cth sth : ℚ) :
    ObjHeap δ × ℕ :=
  applyMatrixHeap h i (rotMat cth sth)

def shearHeap {δ : Type} (h : ObjHeap δ) (i : ℕ) (J : Mat2) :
    ObjHeap δ × ℕ :=
  applyMatrixHeap h i J

/-- C10: dilate, shear and rotate each return a new object (a fresh id,
distinct from the receiver) and leave the receiver unchanged: its matrix
_A and its cached decomposition are identical before and after the call,
so a subsequent _decomposeA of the receiver is unaffected.  The
hypothesis says the receiver is an allocated object (its id is below the
allocation counter). -/
theorem transforms_preserve_receiver {δ : Type} (h : ObjHeap δ) (i : ℕ)
    (hi : i < h.nextId) (scale cth sth : ℚ) (J : Mat2) (dfn : Mat2 → δ) :
    (dilateHeap h i scale).1.mem i = h.mem i ∧
    (rotateHeap h i cth sth).1.mem i = h.mem i ∧
    (shearHeap h i J).1.mem i = h.mem i ∧
    (dilateHeap h i scale).2 ≠ i ∧
    (rotateHeap h i cth sth).2 ≠ i ∧
    (shearHeap h i J).2 ≠ i ∧
    decomposeA dfn ((dilateHeap h i scale).1.mem i)
      = decomposeA dfn (h.mem i) := by
  have hne : i ≠ h.nextId := Nat.ne_of_lt hi
  refine ⟨?_, ?_, ?_, ?_, ?_, ?_, ?_⟩
  · simp [dilateHeap, applyMatrixHeap, hne]
  · simp [rotateHeap, applyMatrixHeap, hne]
  · simp [shearHeap, applyMatrixHeap, hne]
  · simp [dilateHeap, applyMatrixHeap]
    omega
  · simp [rotateHeap, applyMatrixHeap]
    omega
  · simp [shearHeap, applyMatrixHeap]
    omega
  · have : (dilateHeap h i scale).1.mem i = h.mem i := by
      simp [dilateHeap, applyMatrixHeap, hne]
    rw [this]

/-- C10, witness: a one-object heap whose object carries the identity
matrix and a cached decomposition. -/
theorem transforms_preserve_receiver_witness :
    (dilateHeap (δ := Unit)
        ⟨fun _ => ⟨⟨1, 0, 0, 1⟩, some ()⟩, 1⟩ 0 3).1.mem 0
      = (⟨⟨1, 0, 0, 1⟩, some ()⟩ : SpergelState Unit) := by
  exact (transforms_preserve_receiver (δ := Unit)
    ⟨fun _ => ⟨⟨1, 0, 0, 1⟩, some ()⟩, 1⟩ 0 (by norm_num) 3 0 0
    ⟨1, 0, 0, 1⟩ (fun _ => ())).1

/-! ### Part 7: GSObject.drawImage

galsim/gsobject.py: _setup_image (lines 842-886), _local_wcs (888-906),
_parse_offset (908-916), _get_shape (918-927), _fix_center (929-949),
_determine_wcs (951-977) and drawImage (979-1402).

Typing conventions: arguments whose invalid Python types raise TypeError
(an image that is not an Image, an rng that is not a BaseDeviate, a wcs
that is not a BaseWCS, a malformed offset) are excluded by the types of
the model, so every error the model raises is a ValueError, the class
the specification groups as ConfigurationError.  The obsolete dx and
wmult parameters are omitted (wmult = 1).  Pixel buffers and the
SBProfile draw backends are abstract; the backends are function
parameters of the model and the theorems hold for every choice.  The two
warnings emitted by drawImage have no effect on the result and are not
modelled. -/

/-- A local (affine) WCS as returned by wcs.local(): the data the draw
pipeline reads, namely the local pixel area, plus an opaque tag that
keeps distinct local WCS values distinguishable through toImage. -/
structure LocalWCS where
  tag : ℕ
  pixArea : ℚ
deriving DecidableEq

/-- A BaseWCS value: PixelScale(scale), some other uniform WCS, or a
non-uniform WCS.  The local(image_pos) behaviour of non-uniform WCS
values is an arbitrary function of the position: it is modelled by an
atlas parameter A (threaded through the pipeline below), the idx field
selecting the member of the atlas; every theorem quantifies over A. -/
inductive WCSm where
  | pixelScale (s : ℚ)
  | uniformW (lw : LocalWCS)
  | nonUniform (idx : ℕ)
deriving DecidableEq

def WCSm.isUniform : WCSm → Bool
  | .pixelScale _ => true
  | .uniformW _ => true
  | .nonUniform _ => false

def WCSm.isPixelScale : WCSm → Bool
  | .pixelScale _ => true
  | _ => false

/-- wcs.local() for a uniform WCS; the local pixel area of PixelScale(s)
is s^2.  The nonUniform case never reaches this function. -/
def WCSm.localUniform : WCSm → LocalWCS
  | .pixelScale s => { tag := 0, pixArea := s * s }
  | .uniformW lw => lw
  | .nonUniform _ => { tag := 0, pixArea := 1 }

/-- Integer bounds of an Image, possibly undefined. -/
structure BoundsI where
  defined : Bool
  xmin : ℤ
  xmax : ℤ
  ymin : ℤ
  ymax : ℤ
deriving DecidableEq

/-- The numpy array shape of an image with these bounds: (ny, nx). -/
def BoundsI.shape (b : BoundsI) : ℕ × ℕ :=
  ((b.ymax - b.ymin + 1).toNat, (b.xmax - b.xmin + 1).toNat)

/-- The caller-visible state of a galsim.Image relevant to this pipeline:
bounds and the attached WCS.  Pixel contents are not modelled. -/
structure ImageM where
  bounds : BoundsI
  wcs : Option WCSm
deriving DecidableEq

/-- The profile carried through the pipeline.  The original object is a
base profile with its Nyquist scale; the pipeline wraps it with the
local-WCS transform (local_wcs.toImage), the pixel convolution, a shift
and a flux scale.  Shifts compose additively and flux scales
multiplicatively, since Transform composition collapses. -/
structure ProfR where
  nyquist : ℚ
  lwcs : Option LocalWCS
  pixelized : Option (Option Bool)
  offset : ℚ × ℚ
  fluxFactor : ℚ
deriving DecidableEq

def baseProf (nyquist : ℚ) : ProfR :=
  { nyquist := nyquist, lwcs := none, pixelized := none, offset := (0, 0),
    fluxFactor := 1 }

/-- local_wcs.toImage(self) at line 1349. -/
def toImageP (lw : LocalWCS) (p : ProfR) : ProfR := { p with lwcs := some lw }

/-- galsim.Convolve(prof, galsim.Pixel(scale = 1.0), real_space) at
line 1359; real_space is None, False or True for auto, fft, real_space. -/
def convolvePixel (rs : Option Bool) (p : ProfR) : ProfR :=
  { p with pixelized := some rs }

/-- GSObject.shift (lines 802-838): offsets compose additively. -/
def shiftP (d : ℚ × ℚ) (p : ProfR) : ProfR :=
  { p with offset := (p.offset.1 + d.1, p.offset.2 + d.2) }

/-- prof *= flux_scale at line 1378: a pure flux rescaling. -/
def scaleFluxP (s : ℚ) (p : ProfR) : ProfR :=
  { p with fluxFactor := p.fluxFactor * s }

/-- _parse_offset (lines 908-916). -/
def parseOffset (offset : Option (ℚ × ℚ)) : ℚ × ℚ := offset.getD (0, 0)

/-- _get_shape (lines 918-927) for the no-image cases. -/
def getShapeNoImage : Option ℕ → Option ℕ → Option BoundsI → ℕ × ℕ
  | some nxv, some nyv, _ => (nyv, nxv)
  | _, _, some b => if b.defined then b.shape else (0, 0)
  | _, _, _ => (0, 0)

/-- _get_shape (lines 918-927); numpy shapes are ordered (ny, nx). -/
def getShape : Option ImageM → Option ℕ → Option ℕ → Option BoundsI → ℕ × ℕ
  | some im, nx, ny, bounds =>
      if im.bounds.defined then im.bounds.shape
      else getShapeNoImage nx ny bounds
  | none, nx, ny, bounds => getShapeNoImage nx ny bounds

/-- _fix_center (lines 929-949): with use_true_center, subtract half a
pixel from the offset along each axis whose target dimension is even
(shape is (ny, nx), so shape[1] governs x and shape[0] governs y);
negate everything when reverse; then shift unless the combined offset is
exactly zero.  In the ProfR representation a shift by zero is the
identity, so the zero test is an optimisation only. -/
def fixCenter (p : ProfR) (shape : ℕ × ℕ) (offset : ℚ × ℚ)
    (use_true_center reverse : Bool) : ProfR :=
  let off1 : ℚ × ℚ :=
    if use_true_center then
      ((if shape.2 % 2 = 0 then offset.1 - 1 / 2 else offset.1),
       (if shape.1 % 2 = 0 then offset.2 - 1 / 2 else offset.2))
    else offset
  let off2 := if reverse then (-off1.1, -off1.2) else off1
  if off2 = ((0 : ℚ), (0 : ℚ)) then p else shiftP off2 p

/-- _determine_wcs (lines 951-977) with default_wcs = None, as called
from drawImage: validate the scale/wcs/image combination, pick the WCS
(clearing a stale image.wcs when scale or wcs is given), and fall back to
PixelScale(nyquistScale) when nothing usable remains or the pixel scale
is non-positive. -/
def determineWCS (scale : Option ℚ) (wcs : Option WCSm)
    (image : Option ImageM) : Except String (Option WCSm × Option ImageM) :=
  match wcs, scale with
  | some _, some _ => .error "Cannot provide both wcs and scale"
  | some w, none =>
      if w.isUniform = false then
        match image with
        | none => .error "Cannot provide non-local wcs when image is None"
        | some im =>
            if im.bounds.defined = false then
              .error "Cannot provide non-local wcs when image has undefined bounds"
            else .ok (some w, some { im with wcs := none })
      else .ok (some w, image.map (fun im => { im with wcs := none }))
  | none, some s =>
      .ok (some (WCSm.pixelScale s), image.map (fun im => { im with wcs := none }))
  | none, none =>
      match image with
      | some im => .ok (im.wcs, some im)
      | none => .ok (none, none)

/-- The Nyquist fallback of lines 970-975. -/
def defaultWCS (nyquist : ℚ) : Option WCSm → WCSm
  | none => WCSm.pixelScale nyquist
  | some (WCSm.pixelScale s) =>
      if s ≤ 0 then WCSm.pixelScale nyquist else WCSm.pixelScale s
  | some w => w

/-- _local_wcs (lines 888-906).  The integer center used when
use_true_center is false is bounds.center(); its exact rounding feeds
only the opaque localAt function and affects none of the claims. -/
def localWCS (A : ℕ → ℚ × ℚ → LocalWCS) (wcs : WCSm)
    (image : Option ImageM) (offset : ℚ × ℚ)
    (use_true_center : Bool) : Except String LocalWCS :=
  match wcs with
  | WCSm.pixelScale s => .ok (WCSm.localUniform (WCSm.pixelScale s))
  | WCSm.uniformW lw => .ok lw
  | WCSm.nonUniform f =>
      match image with
      | none => .error "Cannot provide non-local wcs when image is None"
      | some im =>
          if im.bounds.defined = false then
            .error "Cannot provide non-local wcs when image has undefined bounds"
          else
            let c : ℚ × ℚ :=
              if use_true_center then
                (((im.bounds.xmin + im.bounds.xmax : ℤ) : ℚ) / 2,
                 ((im.bounds.ymin + im.bounds.ymax : ℤ) : ℚ) / 2)
              else
                ((((im.bounds.xmax + im.bounds.xmin + 1) / 2 : ℤ) : ℚ),
                 (((im.bounds.ymax + im.bounds.ymin + 1) / 2 : ℤ) : ℚ))
            .ok (A f (c.1 + offset.1, c.2 + offset.2))

/-- _setup_image (lines 842-886).  goodSize stands for
SBProfile.getGoodImageSize(1.0, wmult) for the final profile; image
clearing (setZero) only touches the unmodelled pixel buffer. -/
def setupImage (goodSize : ℕ) (image : Option ImageM) (nx ny : Option ℕ)
    (bounds : Option BoundsI) (add_to_image : Bool) (dtype : Option ℕ) :
    Except String ImageM :=
  match image with
  | some im =>
      if bounds.isSome then .error "Cannot provide bounds if image is provided"
      else if nx.isSome ∨ ny.isSome then
        .error "Cannot provide nx,ny if image is provided"
      else if dtype.isSome then
        .error "Cannot specify dtype if image is provided"
      else if im.bounds.defined = false then
        (if add_to_image then
          .error "Cannot add_to_image if image bounds are not defined"
         else .ok { im with bounds := ⟨true, 1, (goodSize : ℤ), 1, (goodSize : ℤ)⟩ })
      else .ok im
  | none =>
      if add_to_image then .error "Cannot add_to_image if image is None"
      else
        match bounds with
        | some b =>
            if nx.isSome ∨ ny.isSome then
              .error "Cannot set both bounds and (nx, ny)"
            else .ok { bounds := b, wcs := none }
        | none =>
            match nx, ny with
            | some nxv, some nyv =>
                .ok { bounds := ⟨true, 1, (nxv : ℤ), 1, (nyv : ℤ)⟩, wcs := none }
            | none, none =>
                .ok { bounds := ⟨true, 1, (goodSize : ℤ), 1, (goodSize : ℤ)⟩, wcs := none }
            | _, _ => .error "Must set either both or neither of nx, ny"

/-- The list of valid method names (line 1276). -/
def validMethod (m : String) : Bool :=
  (["auto", "fft", "real_space", "phot", "no_pixel", "sb"] : List String).contains m

/-- The keyword arguments of drawImage (lines 979-982). -/
structure DrawParams where
  image : Option ImageM
  nx : Option ℕ
  ny : Option ℕ
  bounds : Option BoundsI
  scale : Option ℚ
  wcs : Option WCSm
  dtype : Option ℕ
  method : String
  area : ℚ
  exptime : ℚ
  gain : ℚ
  add_to_image : Bool
  use_true_center : Bool
  offset : Option (ℚ × ℚ)
  n_photons : ℚ
  rng : Option ℕ
  max_extra_noise : ℚ
  poisson_flux : Option Bool
  setup_only : Bool

/-- Everything drawImage has computed by line 1367, just before the
setup_only return: the resolved WCS, the local WCS, the profile before
and after _fix_center, the prepared image (with image.wcs assigned) and
the target shape, together with the resolved photon-shooting inputs. -/
structure DrawSetup where
  wcs : WCSm
  lw : LocalWCS
  preProf : ProfR
  prof : ProfR
  image : ImageM
  shape : ℕ × ℕ
  poisson : Bool
  ud : ℕ
deriving DecidableEq

/-- The pixel convolution step of drawImage (lines 1351-1359): convolve
with the unit pixel for auto, fft and real_space, with the matching
real_space flag; leave the profile alone for phot, no_pixel and sb. -/
def pixelizeByMethod (m : String) (p1 : ProfR) : ProfR :=
  if m = "auto" then convolvePixel none p1
  else if m = "fft" then convolvePixel (some false) p1
  else if m = "real_space" then convolvePixel (some true) p1
  else p1

/-- The profile of lines 1349-1363: image coordinates, pixel convolution
by method, then _fix_center against the target shape. -/
def drawProf3 (self : ProfR) (p : DrawParams) (lw : LocalWCS)
    (image1 : Option ImageM) : ProfR :=
  fixCenter (pixelizeByMethod p.method (toImageP lw self))
    (getShape image1 p.nx p.ny p.bounds) (parseOffset p.offset)
    p.use_true_center false

/-- The state available at line 1367. -/
def mkDrawSetup (self : ProfR) (p : DrawParams) (wcs : WCSm)
    (lw : LocalWCS) (image1 : Option ImageM) (image2 : ImageM) : DrawSetup :=
  { wcs := wcs, lw := lw,
    preProf := pixelizeByMethod p.method (toImageP lw self),
    prof := drawProf3 self p lw image1,
    image := { image2 with wcs := some wcs },
    shape := getShape image1 p.nx p.ny p.bounds,
    poisson := (if p.method = "phot" then
      p.poisson_flux.getD (decide (p.n_photons = 0)) else false),
    ud := p.rng.getD 0 }

/-- drawImage lines 1339-1367, the part of the setup stage after
_determine_wcs has resolved (w0, image1): apply the Nyquist fallback,
parse the offset, take the local WCS, build the centered
pixel-convolved image-coordinate profile, and set up the image. -/
def drawSetupWCS (A : ℕ → ℚ × ℚ → LocalWCS) (G : ProfR → ℕ)
    (self : ProfR) (p : DrawParams)
    (w0 : Option WCSm) (image1 : Option ImageM) : Except String DrawSetup :=
  match localWCS A (defaultWCS self.nyquist w0) image1 (parseOffset p.offset)
      p.use_true_center with
  | .error e => .error e
  | .ok lw =>
    match setupImage (G (drawProf3 self p lw image1)) image1 p.nx p.ny
        p.bounds p.add_to_image p.dtype with
    | .error e => .error e
    | .ok image2 =>
      .ok (mkDrawSetup self p (defaultWCS self.nyquist w0) lw image1 image2)

/-- drawImage lines 1242-1367: the validation and setup stage, in source
order.  G abstracts getGoodImageSize. -/
def drawSetup (A : ℕ → ℚ × ℚ → LocalWCS) (G : ProfR → ℕ)
    (self : ProfR) (p : DrawParams) :
    Except String DrawSetup :=
  if p.gain ≤ 0 then .error "Invalid gain <= 0."
  else if p.area ≤ 0 then .error "Invalid area <= 0."
  else if p.exptime ≤ 0 then .error "Invalid exptime <= 0."
  else if validMethod p.method = false then
    .error ("Invalid method name = " ++ p.method)
  else if p.method = "phot" ∧ p.n_photons < 0 then
    .error "Invalid n_photons < 0."
  else if p.method ≠ "phot" ∧ p.n_photons ≠ 0 then
    .error "n_photons is only relevant for method=phot"
  else if p.method ≠ "phot" ∧ p.rng.isSome then
    .error "rng is only relevant for method=phot"
  else if p.method ≠ "phot" ∧ p.max_extra_noise ≠ 0 then
    .error "max_extra_noise is only relevant for method=phot"
  else if p.method ≠ "phot" ∧ p.poisson_flux.isSome then
    .error "poisson_flux is only relevant for method=phot"
  else if p.scale.isNone ∧ p.wcs.isNone ∧
      (p.nx.isSome ∨ p.ny.isSome ∨ p.bounds.isSome) then
    .error "Must provide scale if providing nx,ny or bounds"
  else
    match determineWCS p.scale p.wcs p.image with
    | .error e => .error e
    | .ok (w0, image1) => drawSetupWCS A G self p w0 image1

/-- The result of drawImage: the image, its added_flux attribute
(lines 1370, 1400), and the profile handed to the drawing backend (none
when setup_only). -/
structure DrawResult where
  image : ImageM
  added_flux : ℚ
  drawn : Option ProfR

/-- drawImage lines 1369-1402: after setup, either return immediately
(setup_only, added_flux = 0, nothing drawn), or scale the profile by
flux_scale = area * exptime / gain, divided additionally by the local
pixel area for method sb, dispatch to the photon-shooting backend Bphot
(SBProfile.drawShoot) or the deterministic backend Bfft (SBProfile.draw),
and set added_flux = added_photons / flux_scale. -/
def drawImageM (A : ℕ → ℚ × ℚ → LocalWCS) (G : ProfR → ℕ)
    (Bfft : ProfR → ℚ)
    (Bphot : ProfR → ℚ → ℕ → ℚ → Bool → Bool → ℚ)
    (self : ProfR) (p : DrawParams) : Except String DrawResult :=
  match drawSetup A G self p with
  | .error e => .error e
  | .ok st =>
      if p.setup_only then
        .ok { image := st.image, added_flux := 0, drawn := none }
      else
        let fs := if p.method = "sb" then
            p.area * p.exptime / p.gain / st.lw.pixArea
          else p.area * p.exptime / p.gain
        let prof := scaleFluxP fs st.prof
        let added_photons :=
          if p.method = "phot" then
            Bphot prof p.n_photons st.ud p.max_extra_noise st.poisson
              p.add_to_image
          else Bfft prof
        .ok { image := st.image, added_flux := added_photons / fs,
              drawn := some prof }



theorem setupImage_ok_of_image {g : ℕ} {im : ImageM} {nx ny : Option ℕ}
    {bounds : Option BoundsI} {a : Bool} {d : Option ℕ} {im2 : ImageM}
    (h : setupImage g (some im) nx ny bounds a d = .ok im2) :
    bounds = none ∧ nx = none ∧ ny = none := by
  unfold setupImage at h
  split_ifs at h with h1 h2 h3 h4 h5 <;>
    first
    | exact ⟨Option.not_isSome_iff_eq_none.mp (by simpa using h1),
        Option.not_isSome_iff_eq_none.mp (fun hc => h2 (Or.inl hc)),
        Option.not_isSome_iff_eq_none.mp (fun hc => h2 (Or.inr hc))⟩
    | exact Except.noConfusion h

theorem determineWCS_preserves_isSome {scale : Option ℚ} {wcs : Option WCSm}
    {image : Option ImageM} {pr : Option WCSm × Option ImageM}
    (h : determineWCS scale wcs image = .ok pr) :
    pr.2.isSome = image.isSome := by
  cases wcs with
  | none =>
    cases scale with
    | none =>
      cases image with
      | none => simp [determineWCS] at h; rw [← h]
      | some im => simp [determineWCS] at h; rw [← h]
    | some s =>
      simp [determineWCS] at h
      rw [← h]
      cases image <;> rfl
  | some w =>
    cases scale with
    | some s => simp [determineWCS] at h
    | none =>
      by_cases hu : w.isUniform = false
      · cases image with
        | none => simp [determineWCS, hu] at h
        | some im =>
          by_cases hb : im.bounds.defined = false
          · simp [determineWCS, hu, hb] at h
          · simp only [determineWCS, hu, if_true] at h
            rw [if_neg hb] at h
            simp only [Except.ok.injEq] at h
            subst h
            rfl
      · simp [determineWCS, hu] at h
        subst h
        cases image <;> rfl

theorem determineWCS_not_both {s : ℚ} {w : WCSm} {image : Option ImageM}
    {pr : Option WCSm × Option ImageM} :
    determineWCS (some s) (some w) image ≠ .ok pr := by
  intro h
  simp [determineWCS] at h

theorem drawSetupWCS_ok_no_conflict {A : ℕ → ℚ × ℚ → LocalWCS}
    {G : ProfR → ℕ} {self : ProfR}
    {p : DrawParams} {w0 : Option WCSm} {im1 : ImageM} {st : DrawSetup}
    (h : drawSetupWCS A G self p w0 (some im1) = .ok st) :
    p.bounds = none ∧ p.nx = none ∧ p.ny = none := by
  unfold drawSetupWCS at h
  split at h
  · exact Except.noConfusion h
  · split at h
    · exact Except.noConfusion h
    · rename_i im2 heq
      exact setupImage_ok_of_image heq

/-- The relation between the profile after and before _fix_center inside
a successful setup. -/
theorem drawSetupWCS_prof_eq {A : ℕ → ℚ × ℚ → LocalWCS}
    {G : ProfR → ℕ} {self : ProfR}
    {p : DrawParams} {w0 : Option WCSm} {image1 : Option ImageM}
    {st : DrawSetup} (h : drawSetupWCS A G self p w0 image1 = .ok st) :
    st.prof = fixCenter st.preProf st.shape (parseOffset p.offset)
      p.use_true_center false := by
  unfold drawSetupWCS at h
  split at h
  · exact Except.noConfusion h
  · split at h
    · exact Except.noConfusion h
    · cases h
      rfl

/-- Inversion of a successful drawSetup: every validation passed and the
tail stages resolved. -/
theorem drawSetup_ok_inversion {A : ℕ → ℚ × ℚ → LocalWCS}
    {G : ProfR → ℕ} {self : ProfR}
    {p : DrawParams} {st : DrawSetup} (h : drawSetup A G self p = .ok st) :
    (¬(p.gain ≤ 0) ∧ ¬(p.area ≤ 0) ∧ ¬(p.exptime ≤ 0) ∧
     ¬(validMethod p.method = false) ∧
     ¬(p.scale.isNone = true ∧ p.wcs.isNone = true ∧
       (p.nx.isSome = true ∨ p.ny.isSome = true ∨ p.bounds.isSome = true))) ∧
    ∃ w0 image1, determineWCS p.scale p.wcs p.image = .ok (w0, image1) ∧
      drawSetupWCS A G self p w0 image1 = .ok st := by
  unfold drawSetup at h
  by_cases c1 : p.gain ≤ 0
  · rw [if_pos c1] at h; exact Except.noConfusion h
  rw [if_neg c1] at h
  by_cases c2 : p.area ≤ 0
  · rw [if_pos c2] at h; exact Except.noConfusion h
  rw [if_neg c2] at h
  by_cases c3 : p.exptime ≤ 0
  · rw [if_pos c3] at h; exact Except.noConfusion h
  rw [if_neg c3] at h
  by_cases c4 : validMethod p.method = false
  · rw [if_pos c4] at h; exact Except.noConfusion h
  rw [if_neg c4] at h
  by_cases c5 : p.method = "phot" ∧ p.n_photons < 0
  · rw [if_pos c5] at h; exact Except.noConfusion h
  rw [if_neg c5] at h
  by_cases c6 : p.method ≠ "phot" ∧ p.n_photons ≠ 0
  · rw [if_pos c6] at h; exact Except.noConfusion h
  rw [if_neg c6] at h
  by_cases c7 : p.method ≠ "phot" ∧ p.rng.isSome = true
  · rw [if_pos c7] at h; exact Except.noConfusion h
  rw [if_neg c7] at h
  by_cases c8 : p.method ≠ "phot" ∧ p.max_extra_noise ≠ 0
  · rw [if_pos c8] at h; exact Except.noConfusion h
  rw [if_neg c8] at h
  by_cases c9 : p.method ≠ "phot" ∧ p.poisson_flux.isSome = true
  · rw [if_pos c9] at h; exact Except.noConfusion h
  rw [if_neg c9] at h
  by_cases c10 : p.scale.isNone = true ∧ p.wcs.isNone = true ∧
      (p.nx.isSome = true ∨ p.ny.isSome = true ∨ p.bounds.isSome = true)
  · rw [if_pos c10] at h; exact Except.noConfusion h
  rw [if_neg c10] at h
  split at h
  · exact Except.noConfusion h
  · rename_i w0 image1 hdw
    exact ⟨⟨c1, c2, c3, c4, c10⟩, w0, image1, hdw, h⟩

/-- Helper: a successful setup stage certifies every validity condition
of claim C6. -/
theorem drawSetup_ok_facts {A : ℕ → ℚ × ℚ → LocalWCS}
    {G : ProfR → ℕ} {self : ProfR} {p : DrawParams}
    {st : DrawSetup} (h : drawSetup A G self p = .ok st) :
    0 < p.gain ∧ 0 < p.area ∧ 0 < p.exptime ∧
    validMethod p.method = true ∧
    ¬(p.scale.isNone ∧ p.wcs.isNone ∧
      (p.nx.isSome ∨ p.ny.isSome ∨ p.bounds.isSome)) ∧
    ¬(p.image.isSome ∧ (p.nx.isSome ∨ p.ny.isSome ∨ p.bounds.isSome)) ∧
    ¬(p.scale.isSome ∧ p.wcs.isSome) := by
  obtain ⟨hvalid, w0, image1, hdw, hwcs⟩ := drawSetup_ok_inversion h
  refine ⟨lt_of_not_le hvalid.1, lt_of_not_le hvalid.2.1,
    lt_of_not_le hvalid.2.2.1, by simpa using hvalid.2.2.2.1,
    hvalid.2.2.2.2, ?_, ?_⟩
  · rintro ⟨himg, hconf⟩
    have hio : image1.isSome = true := by
      have := determineWCS_preserves_isSome hdw
      simpa [this] using himg
    obtain ⟨im1, him1⟩ := Option.isSome_iff_exists.mp hio
    rw [him1] at hwcs
    have hok := drawSetupWCS_ok_no_conflict hwcs
    rcases hconf with hx | hx | hx
    · rw [hok.2.1] at hx; simp at hx
    · rw [hok.2.2] at hx; simp at hx
    · rw [hok.1] at hx; simp at hx
  · rintro ⟨hs, hw⟩
    obtain ⟨s, hs'⟩ := Option.isSome_iff_exists.mp hs
    obtain ⟨w, hw'⟩ := Option.isSome_iff_exists.mp hw
    rw [hs', hw'] at hdw
    exact determineWCS_not_both hdw

/-- C6: drawImage raises a ValueError (the class the specification calls
ConfigurationError) synchronously, for every drawing backend and before
any flux is deposited, in each of these cases: the method string is not
one of the six valid method names; gain, area or exptime is
non-positive; nx, ny or bounds is given without a scale or wcs; an
existing image is given together with nx, ny or bounds; or both scale
and wcs are given.  Since the statement holds for every backend pair, no
drawing can have taken place. -/
theorem drawImage_configuration_errors (A : ℕ → ℚ × ℚ → LocalWCS)
    (G : ProfR → ℕ) (Bfft : ProfR → ℚ)
    (Bphot : ProfR → ℚ → ℕ → ℚ → Bool → Bool → ℚ) (self : ProfR)
    (p : DrawParams)
    (hcase : validMethod p.method = false ∨ p.gain ≤ 0 ∨ p.area ≤ 0 ∨
      p.exptime ≤ 0 ∨
      (p.scale.isNone ∧ p.wcs.isNone ∧
        (p.nx.isSome ∨ p.ny.isSome ∨ p.bounds.isSome)) ∨
      (p.image.isSome ∧ (p.nx.isSome ∨ p.ny.isSome ∨ p.bounds.isSome)) ∨
      (p.scale.isSome ∧ p.wcs.isSome)) :
    ∃ msg, drawImageM A G Bfft Bphot self p = .error msg := by
  cases hres : drawImageM A G Bfft Bphot self p with
  | error e => exact ⟨e, rfl⟩
  | ok r =>
    exfalso
    unfold drawImageM at hres
    cases hst : drawSetup A G self p with
    | error e => rw [hst] at hres; exact Except.noConfusion hres
    | ok st =>
      have hf := drawSetup_ok_facts hst
      rcases hcase with hc | hc | hc | hc | hc | hc | hc
      · exact Bool.noConfusion (hf.2.2.2.1.symm.trans hc)
      · exact absurd hc (not_le.mpr hf.1)
      · exact absurd hc (not_le.mpr hf.2.1)
      · exact absurd hc (not_le.mpr hf.2.2.1)
      · exact hf.2.2.2.2.1 hc
      · exact hf.2.2.2.2.2.1 hc
      · exact hf.2.2.2.2.2.2 hc

/-- A benign parameter set for concrete evaluation: new image, scale 1,
method fft, every other argument at its default. -/
def defaultParams : DrawParams :=
  { image := none, nx := none, ny := none, bounds := none, scale := some 1,
    wcs := none, dtype := none, method := "fft", area := 1, exptime := 1,
    gain := 1, add_to_image := false, use_true_center := true,
    offset := none, n_photons := 0, rng := none, max_extra_noise := 0,
    poisson_flux := none, setup_only := false }

/-- C6, witness: gain = 0 raises. -/
theorem drawImage_configuration_errors_witness :
    ∃ msg, drawImageM (fun _ _ => ⟨0, 1⟩) (fun _ => 4) (fun _ => 1)
      (fun _ _ _ _ _ _ => 1)
      (baseProf 1) { defaultParams with gain := 0 } = .error msg := by
  exact drawImage_configuration_errors (fun _ _ => ⟨0, 1⟩) (fun _ => 4)
    (fun _ => 1)
    (fun _ _ _ _ _ _ => 1) (baseProf 1) { defaultParams with gain := 0 }
    (Or.inr (Or.inl (by norm_num)))

/-- C1: for every profile, every pair of drawing backends and every
successful drawImage call that is not setup_only, drawImage multiplies
the image-coordinate profile (st.prof, already pixel-convolved and
centered) by flux_scale = area * exptime / gain, additionally divided by
the local pixel area of the resolved WCS when method is sb; deposits
pixel values from that scaled profile (it is the profile handed to the
selected backend); and sets image.added_flux to the total flux actually
deposited by the backend divided by that same flux_scale factor. -/
theorem drawImage_flux_scaling (A : ℕ → ℚ × ℚ → LocalWCS)
    (G : ProfR → ℕ) (Bfft : ProfR → ℚ)
    (Bphot : ProfR → ℚ → ℕ → ℚ → Bool → Bool → ℚ) (self : ProfR)
    (p : DrawParams) (st : DrawSetup)
    (h : drawSetup A G self p = .ok st) (hso : p.setup_only = false) :
    drawImageM A G Bfft Bphot self p = .ok
      { image := st.image,
        added_flux :=
          (if p.method = "phot" then
            Bphot (scaleFluxP (if p.method = "sb" then
                p.area * p.exptime / p.gain / st.lw.pixArea
              else p.area * p.exptime / p.gain) st.prof)
              p.n_photons st.ud p.max_extra_noise st.poisson p.add_to_image
           else Bfft (scaleFluxP (if p.method = "sb" then
                p.area * p.exptime / p.gain / st.lw.pixArea
              else p.area * p.exptime / p.gain) st.prof))
          / (if p.method = "sb" then
                p.area * p.exptime / p.gain / st.lw.pixArea
             else p.area * p.exptime / p.gain),
        drawn := some (scaleFluxP (if p.method = "sb" then
            p.area * p.exptime / p.gain / st.lw.pixArea
          else p.area * p.exptime / p.gain) st.prof) } := by
  unfold drawImageM
  rw [h, hso]
  rfl

instance {ε α : Type} [DecidableEq ε] [DecidableEq α] :
    DecidableEq (Except ε α) := fun a b =>
  match a, b with
  | .error e1, .error e2 =>
      if h : e1 = e2 then isTrue (by rw [h])
      else isFalse (by intro hc; cases hc; exact h rfl)
  | .ok v1, .ok v2 =>
      if h : v1 = v2 then isTrue (by rw [h])
      else isFalse (by intro hc; cases hc; exact h rfl)
  | .error _, .ok _ => isFalse (by intro hc; cases hc)
  | .ok _, .error _ => isFalse (by intro hc; cases hc)

/-- The setup state reached from defaultParams on a unit-Nyquist profile
with good image size 4: pixel scale 1, auto-sized image of 4x4 pixels,
shape (0, 0) during centering, half-pixel adjustment on both axes. -/
def defaultSetup : DrawSetup :=
  { wcs := WCSm.pixelScale 1,
    lw := { tag := 0, pixArea := 1 },
    preProf := { nyquist := 1, lwcs := some { tag := 0, pixArea := 1 },
                 pixelized := some (some false), offset := (0, 0),
                 fluxFactor := 1 },
    prof := { nyquist := 1, lwcs := some { tag := 0, pixArea := 1 },
              pixelized := some (some false), offset := (-(1 / 2), -(1 / 2)),
              fluxFactor := 1 },
    image := { bounds := ⟨true, 1, 4, 1, 4⟩, wcs := some (WCSm.pixelScale 1) },
    shape := (0, 0),
    poisson := false,
    ud := 0 }

/-- C1, witness: a unit profile drawn with method fft at scale 1 on an
auto-sized image with a backend depositing 9/10; flux_scale is 1 and
added_flux is 9/10. -/
theorem drawImage_flux_scaling_witness :
    drawImageM (fun _ _ => ⟨0, 1⟩) (fun _ => 4) (fun _ => 9 / 10)
      (fun _ _ _ _ _ _ => 1)
      (baseProf 1) defaultParams = .ok
      { image := defaultSetup.image, added_flux := 9 / 10,
        drawn := some (scaleFluxP 1 defaultSetup.prof) } := by
  have h := drawImage_flux_scaling (fun _ _ => ⟨0, 1⟩) (fun _ => 4)
    (fun _ => 9 / 10)
    (fun _ _ _ _ _ _ => 1) (baseProf 1) defaultParams defaultSetup
    (by
      norm_num [drawSetup, drawSetupWCS, mkDrawSetup, drawProf3,
        pixelizeByMethod, determineWCS, defaultWCS, localWCS, parseOffset,
        getShape, getShapeNoImage, setupImage, fixCenter, convolvePixel,
        toImageP, shiftP, baseProf, defaultParams, defaultSetup, validMethod,
        WCSm.localUniform, WCSm.isUniform, BoundsI.shape]
      decide) rfl
  rw [h]
  norm_num [defaultParams, defaultSetup, scaleFluxP]
  decide

theorem shiftP_zero (p : ProfR) : shiftP (0, 0) p = p := by
  simp [shiftP]

/-- _fix_center with use_true_center and reverse = False equals a single
shift by the user offset minus half a pixel along each even axis. -/
theorem fixCenter_true_eq (p : ProfR) (shape : ℕ × ℕ) (off : ℚ × ℚ) :
    fixCenter p shape off true false
      = shiftP (off.1 - (if shape.2 % 2 = 0 then (1 : ℚ) / 2 else 0),
                off.2 - (if shape.1 % 2 = 0 then (1 : ℚ) / 2 else 0)) p := by
  have harg : ((if shape.2 % 2 = 0 then off.1 - 1 / 2 else off.1),
               (if shape.1 % 2 = 0 then off.2 - 1 / 2 else off.2))
      = (off.1 - (if shape.2 % 2 = 0 then (1 : ℚ) / 2 else 0),
         off.2 - (if shape.1 % 2 = 0 then (1 : ℚ) / 2 else 0)) := by
    by_cases hx : shape.2 % 2 = 0 <;> by_cases hy : shape.1 % 2 = 0 <;>
      simp [hx, hy]
  show (if ((if shape.2 % 2 = 0 then off.1 - 1 / 2 else off.1),
            (if shape.1 % 2 = 0 then off.2 - 1 / 2 else off.2))
          = ((0 : ℚ), (0 : ℚ)) then p
        else shiftP ((if shape.2 % 2 = 0 then off.1 - 1 / 2 else off.1),
            (if shape.1 % 2 = 0 then off.2 - 1 / 2 else off.2)) p) = _
  rw [harg]
  by_cases hz : (off.1 - (if shape.2 % 2 = 0 then (1 : ℚ) / 2 else 0),
      off.2 - (if shape.1 % 2 = 0 then (1 : ℚ) / 2 else 0))
      = ((0 : ℚ), (0 : ℚ))
  · rw [if_pos hz, hz, shiftP_zero]
  · rw [if_neg hz]

/-- C7, amended: for every successful drawImage setup with
use_true_center = true (the default), the profile actually drawn
(st.prof, which the dispatch stage then flux-scales and hands to the
backend) is the image-coordinate pixel-convolved profile st.preProf
shifted, in one step, by the user offset adjusted by minus half a pixel
along each axis whose target image dimension is even; along
odd-dimension axes no half-pixel adjustment is applied.  The amendment
restricts the claim to use_true_center = true: with use_true_center set
to false the source applies the user offset without any half-pixel
adjustment, as the counterexample shows. -/
theorem drawImage_even_axis_centering (A : ℕ → ℚ × ℚ → LocalWCS)
    (G : ProfR → ℕ) (self : ProfR) (p : DrawParams) (st : DrawSetup)
    (h : drawSetup A G self p = .ok st) (hutc : p.use_true_center = true) :
    st.prof = shiftP
      ((parseOffset p.offset).1 -
        (if st.shape.2 % 2 = 0 then (1 : ℚ) / 2 else 0),
       (parseOffset p.offset).2 -
        (if st.shape.1 % 2 = 0 then (1 : ℚ) / 2 else 0))
      st.preProf := by
  obtain ⟨_, w0, image1, hdw, hwcs⟩ := drawSetup_ok_inversion h
  have hprof := drawSetupWCS_prof_eq hwcs
  rw [hprof, hutc, fixCenter_true_eq]

/-- C7, witness: defaultParams draws with use_true_center = true on the
shape (0, 0) (both axes even), so both axes get the minus-half-pixel
adjustment. -/
theorem drawImage_even_axis_centering_witness :
    defaultSetup.prof = shiftP
      ((parseOffset defaultParams.offset).1 -
        (if defaultSetup.shape.2 % 2 = 0 then (1 : ℚ) / 2 else 0),
       (parseOffset defaultParams.offset).2 -
        (if defaultSetup.shape.1 % 2 = 0 then (1 : ℚ) / 2 else 0))
      defaultSetup.preProf := by
  exact drawImage_even_axis_centering (fun _ _ => ⟨0, 1⟩) (fun _ => 4)
    (baseProf 1) defaultParams defaultSetup
    (by
      norm_num [drawSetup, drawSetupWCS, mkDrawSetup, drawProf3,
        pixelizeByMethod, determineWCS, defaultWCS, localWCS, parseOffset,
        getShape, getShapeNoImage, setupImage, fixCenter, convolvePixel,
        toImageP, shiftP, baseProf, defaultParams, defaultSetup, validMethod,
        WCSm.localUniform, WCSm.isUniform, BoundsI.shape]
      decide) rfl

/-- The parameters of the counterexample to C7 as stated: an even-sized
2 x 2 target with use_true_center = false. -/
def cexParamsC7 : DrawParams :=
  { defaultParams with use_true_center := false, nx := some 2, ny := some 2 }

/-- C7, counterexample: with use_true_center = false on a 2 x 2 target
(both dimensions even) and no user offset, the profile actually drawn
carries offset (0, 0), not the (-1/2, -1/2) that the unrestricted claim
would require. -/
theorem drawImage_centering_counterexample :
    (drawSetup (fun _ _ => ⟨0, 1⟩) (fun _ => 4) (baseProf 1)
        cexParamsC7).map (fun st => st.prof.offset) = .ok (0, 0) ∧
    ((0 : ℚ), (0 : ℚ)) ≠
      ((parseOffset cexParamsC7.offset).1 - 1 / 2,
       (parseOffset cexParamsC7.offset).2 - 1 / 2) := by
  constructor
  · decide
  · norm_num [cexParamsC7, defaultParams, parseOffset, Prod.ext_iff]
